import Mathlib

/-
  Verification development for the interval algorithms of
  silence_removal.py (silence removal from videos).

  Time is modelled by rationals: the Python code computes with floats, but
  every claim under study concerns the exact interval combinatorics of the
  algorithms, not floating-point rounding.  An audio track is modelled by
  the list of its maximal non-silent runs (in seconds) together with its
  total duration; the pydub call `detect_nonsilent` that produces those
  runs is an external collaborator.
-/

/-- A time interval `(start, end)` in seconds. -/
abbrev Seg : Type := ℚ × ℚ

/-- The gaps between consecutive intervals of a list:
`(l[i].end, l[i+1].start)` for each `i`.  This is the loop
`for i in range(len(l) - 1): out.append((l[i][1], l[i+1][0]))`
appearing at lines 91-92 and again at lines 146-147 of silence_removal.py. -/
def gapsBetween : List Seg → List Seg
  | a :: b :: t => (a.2, b.1) :: gapsBetween (b :: t)
  | _ => []

/-- `get_silent_segments` (silence_removal.py lines 84-103), parametrised by
the list `runs` of non-silent ranges (already converted to seconds, line 81)
returned by the external `detect_nonsilent` call, and by the audio length
`dur` in seconds (line 95).  Leading silence is added when the first run
starts after 0 (lines 87-88), gaps between runs always (lines 91-92),
trailing silence when the last run ends before the audio length
(lines 96-97); finally segments shorter than `minLen` are filtered out
(lines 100-101). -/
def get_silent_segments (runs : List Seg) (dur minLen : ℚ) : List Seg :=
  let lead : List Seg :=
    match runs with
    | [] => []
    | r :: _ => if r.1 > 0 then [((0 : ℚ), r.1)] else []
  let trail : List Seg :=
    match runs.getLast? with
    | none => []
    | some r => if r.2 < dur then [(r.2, dur)] else []
  (lead ++ gapsBetween runs ++ trail).filter (fun g => minLen ≤ g.2 - g.1)

/-- The keep-segment computation of `remove_silence_from_video`
(silence_removal.py lines 138-151), reached only when `silent_segments` is
non-empty: segment from start to first silence (lines 142-143), segments
between silences (lines 146-147), segment from last silence to the video
duration `D` (lines 150-151). -/
def keep_segments (S : List Seg) (D : ℚ) : List Seg :=
  let lead : List Seg :=
    match S with
    | [] => []
    | s :: _ => if s.1 > 0 then [((0 : ℚ), s.1)] else []
  let trail : List Seg :=
    match S.getLast? with
    | none => []
    | some s => if s.2 < D then [(s.2, D)] else []
  lead ++ gapsBetween S ++ trail

/-- The keep-interval sequence produced by `remove_silence_from_video` as a
whole: when there are no silent segments the early branch (lines 132-136)
writes the input video unchanged, i.e. keeps the single interval
`(0, duration)`; otherwise the keep-segments of lines 138-151 are used. -/
def plan_segments (S : List Seg) (D : ℚ) : List Seg :=
  match S with
  | [] => [((0 : ℚ), D)]
  | _ => keep_segments S D

/-- The observable outcome of `remove_silence_from_video`
(silence_removal.py lines 120-172): `fullWrite` is the early branch that
writes the input video unchanged (lines 132-136), `noKeep` the
warning-and-return branch taken when there are no clips to keep
(lines 156-159), and `wrote ks` the reconstruction that concatenates the
subclips for the keep-segments `ks` and writes the output (lines 161-166). -/
inductive RemoveResult where
  | fullWrite : RemoveResult
  | noKeep : RemoveResult
  | wrote : List Seg → RemoveResult
deriving DecidableEq

/-- Control flow of `remove_silence_from_video` (lines 120-172) on the pure
data (`S` the supplied silent segments, `D` the video duration).  The list
`clips` of line 154 has one subclip per keep-segment, so it is empty exactly
when the keep-segments are. -/
def remove_silence_from_video (S : List Seg) (D : ℚ) : RemoveResult :=
  match S with
  | [] => .fullWrite
  | _ => if keep_segments S D = [] then .noKeep else .wrote (keep_segments S D)

/-- Lexicographic comparison of pairs: Python's `list.sort()` on 2-tuples
(line 225) orders by first component, ties broken by the second. -/
def leLex (a b : Seg) : Prop := a.1 < b.1 ∨ (a.1 = b.1 ∧ a.2 ≤ b.2)

instance leLex.decidableRel : DecidableRel leLex := fun a b => by
  unfold leLex; exact inferInstance

/-- The sorted permutation of `l` in the order of Python's `list.sort()`
(line 225).  Insertion sort is used here; the result is the unique
`leLex`-sorted permutation, which is what `list.sort()` returns. -/
def sortLex (l : List Seg) : List Seg := List.insertionSort leLex l

/-- The merging loop of `process_long_video` (silence_removal.py
lines 226-235): `acc` is the current last element of `merged_segments`,
and the list already emitted is final.  When the next segment starts at or
before `acc`'s end the accumulator's end is extended to the maximum
(lines 230-232), otherwise the segment is started as a new accumulator
(lines 234-235). -/
def sweep (acc : Seg) : List Seg → List Seg
  | [] => [acc]
  | s :: t =>
      if s.1 ≤ acc.2 then sweep (acc.1, max acc.2 s.2) t
      else acc :: sweep s t

/-- Sorting and merging of the collected silent segments
(silence_removal.py lines 223-237): sort, then left-to-right sweep; an
empty collection yields an empty merged list (lines 236-237). -/
def merge_segments (l : List Seg) : List Seg :=
  match sortLex l with
  | [] => []
  | x :: t => sweep x t

/-- The number of chunks: `range(0, int(duration), 600)` has
`⌈⌊duration⌋ / 600⌉` elements (silence_removal.py lines 190-192). -/
def numChunks (D : ℚ) : ℕ := (⌊D⌋.toNat + 599) / 600

/-- `chunks = [(i, min(i + chunk_size, duration)) for i in
range(0, int(duration), chunk_size)]` with `chunk_size = 600`
(silence_removal.py lines 190-192). -/
def chunks_of (D : ℚ) : List Seg :=
  (List.range (numChunks D)).map
    (fun k : ℕ => ((600 * k : ℚ), min ((600 * k : ℚ) + 600) D))

/-- Modelled from the spec: the audio extraction of a chunk and the
classification of the sub-track into maximal non-silent runs (spec 4.1
"classify the track into maximal non-silent runs", spec 4.4 step 2
"extract the corresponding audio slice, run SilenceDetector on it in
isolation").  The extraction (`video.subclip`, lines 207-209) and the
classification (`detect_nonsilent`) are external collaborators whose code
is not in src/: the sub-track over `[a, b]` of a track with non-silent
runs `runs` has as its non-silent runs exactly the parts of `runs` that
overlap `(a, b)`, truncated to `[a, b]` (absolute times here). -/
def clipRunsAbs (runs : List Seg) (a b : ℚ) : List Seg :=
  runs.filterMap (fun r =>
    if max r.1 a < min r.2 b then some (max r.1 a, min r.2 b) else none)

/-- The same sub-track runs in the chunk's own relative time, as the audio
file written at lines 204-209 presents them to `get_silent_segments`. -/
def clipRuns (runs : List Seg) (a b : ℚ) : List Seg :=
  (clipRunsAbs runs a b).map (fun r => (r.1 - a, r.2 - a))

/-- The chunked detection of `process_long_video` (silence_removal.py
lines 198-237): per-chunk detection on the chunk's audio (line 214),
shifted by the chunk's start (line 217), collected in chunk order
(line 218), then sorted and merged (lines 223-237). -/
def chunked_silent_segments (runs : List Seg) (D minLen : ℚ) : List Seg :=
  merge_segments ((chunks_of D).flatMap (fun c =>
    (get_silent_segments (clipRuns runs c.1 c.2) (c.2 - c.1) minLen).map
      (fun g => (g.1 + c.1, g.2 + c.1))))

/-- The silence_threshold post-processing of `load_config`
(silence_removal.py lines 33-42): missing key defaults to `-50`; a positive
configured value `v` is replaced by `-|v * 100|`. -/
def load_config_silence_threshold : Option ℚ → ℚ
  | none => -50
  | some v => if v > 0 then -|v * 100| else v

/-- The min_silence_length defaulting of `load_config`
(silence_removal.py lines 44-45): missing key defaults to `0.5` seconds. -/
def load_config_min_silence_length : Option ℚ → ℚ
  | none => 1/2
  | some v => v

/-- The set of time points covered by a list of intervals, each read as the
half-open interval `[start, end)`. -/
def segUnion (l : List Seg) : Set ℚ :=
  l.foldr (fun s u => Set.Ico s.1 s.2 ∪ u) ∅

/-- The detection output as worded by the specification (spec 4.1 and
claim C4): the complement gaps of the non-silent runs `r1 .. rn` —
`(0, r1.start)` when `r1.start > 0`, `(ri.end, r(i+1).start)` between each
pair of consecutive runs, `(rn.end, duration)` when `rn.end < duration` —
with every gap whose length is strictly less than `minLen` discarded. -/
def specComplementGaps (runs : List Seg) (dur minLen : ℚ) : List Seg :=
  match runs with
  | [] => []
  | r :: _ =>
      ((if 0 < r.1 then [((0 : ℚ), r.1)] else []) ++
        ((runs.zip runs.tail).map (fun p => (p.1.2, p.2.1))) ++
        (match runs.getLast? with
         | none => []
         | some rn => if rn.2 < dur then [(rn.2, dur)] else [])).filter
        (fun g => ¬ g.2 - g.1 < minLen)

/- ### Claim C10: load_config defaulting and threshold conversion -/

/-- C10: when silence_threshold is present and positive, load_config
replaces it with `-(silence_threshold * 100)`; when absent it defaults to
`-50`; when min_silence_length is absent it defaults to `0.5` seconds. -/
theorem c10_load_config_defaults (v : ℚ) (hv : 0 < v) :
    load_config_silence_threshold (some v) = -(v * 100) ∧
    load_config_silence_threshold none = -50 ∧
    load_config_min_silence_length none = 1/2 := by
  refine ⟨?_, rfl, rfl⟩
  simp only [load_config_silence_threshold]
  rw [if_pos hv, abs_of_pos (by positivity)]

/-- Witness for C10 at the concrete thresholds 0.5 and 5. -/
theorem c10_witness :
    load_config_silence_threshold (some (1/2)) = -50 ∧
    load_config_silence_threshold (some 5) = -500 ∧
    load_config_silence_threshold none = -50 ∧
    load_config_min_silence_length none = 1/2 := by
  refine ⟨?_, ?_, (c10_load_config_defaults 1 one_pos).2.1,
    (c10_load_config_defaults 1 one_pos).2.2⟩
  · rw [(c10_load_config_defaults (1/2) (by norm_num)).1]; norm_num
  · rw [(c10_load_config_defaults 5 (by norm_num)).1]; norm_num

/- ### Claim C7: empty keep-sequence is the nothing-to-keep terminal state -/

/-- C7: whenever the keep-segment sequence computed by
`remove_silence_from_video` is empty, the writer is not invoked: the
function signals the nothing-to-keep terminal state and returns without
reconstruction. -/
theorem c7_empty_keep_no_write (S : List Seg) (D : ℚ) (hS : S ≠ [])
    (hk : keep_segments S D = []) :
    remove_silence_from_video S D = RemoveResult.noKeep := by
  cases S with
  | nil => exact absurd rfl hS
  | cons s t => simp [remove_silence_from_video, hk]

/-- Witness for C7: silences covering the whole duration. -/
theorem c7_witness :
    keep_segments [((0:ℚ), 5)] 5 = [] ∧
    remove_silence_from_video [((0:ℚ), 5)] 5 = RemoveResult.noKeep :=
  ⟨by decide, c7_empty_keep_no_write [((0:ℚ), 5)] 5 (by decide) (by decide)⟩

/- ### Claim C1: a track with no non-silent runs -/

/-- Counterexample for C1: on a track of positive duration 5 with no
non-silent runs, detection returns `[]`, not `[(0, 5)]`, and the input is
written as output (fullWrite branch), not reported as the empty-result
terminal condition. -/
theorem c1_counterexample :
    get_silent_segments [] 5 (1/2) ≠ [((0:ℚ), 5)] ∧
    remove_silence_from_video (get_silent_segments [] 5 (1/2)) 5 ≠
      RemoveResult.noKeep := by
  decide

/-- C1 amended: for every track of positive duration with no non-silent
runs, detection returns the empty list; consequently
`remove_silence_from_video` takes its no-silent-segments branch and writes
the input video unchanged rather than reporting the empty-result terminal
condition. -/
theorem c1_amended (D minLen : ℚ) (hD : 0 < D) :
    get_silent_segments [] D minLen = [] ∧
    remove_silence_from_video (get_silent_segments [] D minLen) D =
      RemoveResult.fullWrite := by
  constructor
  · rfl
  · rfl

/-- Witness for C1 amended at duration 5. -/
theorem c1_witness :
    (0:ℚ) < 5 ∧ get_silent_segments [] 5 (1/2) = [] ∧
    remove_silence_from_video (get_silent_segments [] 5 (1/2)) 5 =
      RemoveResult.fullWrite :=
  ⟨by norm_num, (c1_amended 5 (1/2) (by norm_num)).1,
    (c1_amended 5 (1/2) (by norm_num)).2⟩

/- ### Claim C8: malformed intervals are not rejected -/

/-- Counterexample for C8: on the malformed interval `(5, 1)` (end < start)
both the merge and the keep-planning return results computed from the
malformed values instead of failing: no error path exists in either. -/
theorem c8_counterexample :
    merge_segments [((5:ℚ), 1)] = [((5:ℚ), 1)] ∧
    keep_segments [((5:ℚ), 1)] 10 = [(0, 5), (1, 10)] := by
  constructor
  · decide
  · decide

/-- C8 amended: the merge and keep-planning operations contain no input
validation: a malformed interval (end < start) is processed by the same
arithmetic and propagates to the result unchanged — no error is raised and
no clamping occurs. -/
theorem c8_amended (s e D : ℚ) (h1 : e < s) (h2 : 0 < s) (h3 : e < D) :
    merge_segments [(s, e)] = [(s, e)] ∧
    keep_segments [(s, e)] D = [(0, s), (e, D)] := by
  constructor
  · simp [merge_segments, sortLex, List.insertionSort, sweep]
  · simp [keep_segments, gapsBetween, h2, h3]

/-- Witness for C8 amended at `(5, 1)` with duration 10. -/
theorem c8_witness :
    (1:ℚ) < 5 ∧ (0:ℚ) < 5 ∧ (1:ℚ) < 10 ∧
    merge_segments [((5:ℚ), 1)] = [((5:ℚ), 1)] ∧
    keep_segments [((5:ℚ), 1)] 10 = [(0, 5), (1, 10)] :=
  ⟨by norm_num, by norm_num, by norm_num,
    (c8_amended 5 1 10 (by norm_num) (by norm_num) (by norm_num)).1,
    (c8_amended 5 1 10 (by norm_num) (by norm_num) (by norm_num)).2⟩

/- ### Claim C4: detection is the filtered complement of the runs -/

/-- The gap loop written with `zip`, as the spec words it ("between each
pair of consecutive runs"). -/
theorem gapsBetween_eq_zip : ∀ l : List Seg,
    gapsBetween l = (l.zip l.tail).map (fun p => (p.1.2, p.2.1))
  | [] => rfl
  | [_] => rfl
  | a :: b :: t => by
      rw [show gapsBetween (a :: b :: t) = (a.2, b.1) :: gapsBetween (b :: t)
        from rfl, gapsBetween_eq_zip (b :: t)]
      rfl

/-- C4: for a track with at least one non-silent run, detection returns
exactly the complement gaps of the runs, with every gap shorter than
`minLen` discarded; hence every returned silent segment has length at
least `minLen`. -/
theorem c4_detect_equals_complement (r : Seg) (rs : List Seg) (dur minLen : ℚ) :
    get_silent_segments (r :: rs) dur minLen =
      specComplementGaps (r :: rs) dur minLen ∧
    ∀ g ∈ get_silent_segments (r :: rs) dur minLen, minLen ≤ g.2 - g.1 := by
  constructor
  · show (_ ++ gapsBetween (r :: rs) ++ _).filter _ = _
    rw [gapsBetween_eq_zip]
    exact List.filter_congr (fun g _ => by
      simp only [decide_eq_decide, not_lt])
  · intro g hg
    have := List.mem_filter.mp hg
    simpa using this.2

/-- Witness for C4: a 0.2s dip `(1, 1.2)` with minLen 0.5 is absent, and a
member of the output has length at least minLen. -/
theorem c4_witness :
    ((1:ℚ), 6/5) ∉ get_silent_segments [((0:ℚ),1), (6/5, 2), (3, 5)] 5 (1/2) ∧
    (1/2 : ℚ) ≤ (3:ℚ) - 2 := by
  have h : get_silent_segments [((0:ℚ),1), (6/5, 2), (3, 5)] 5 (1/2) =
      [((2:ℚ), 3)] := by
    norm_num [get_silent_segments, gapsBetween, List.getLast?, List.filter]
  refine ⟨by rw [h]; norm_num [Prod.ext_iff], ?_⟩
  exact (c4_detect_equals_complement ((0:ℚ),1) [(6/5,2),(3,5)] 5 (1/2)).2
    ((2:ℚ), 3) (by rw [h]; simp)

/- ### Chunk-list structure (claim C6 and groundwork for C2) -/

/-- The floor of a non-negative rational, cast back, is at most it. -/
theorem floor_toNat_le (D : ℚ) (hD : 0 ≤ D) : ((⌊D⌋.toNat : ℚ)) ≤ D := by
  have h0 : (0:ℤ) ≤ ⌊D⌋ := Int.floor_nonneg.mpr hD
  have h3 : ((⌊D⌋.toNat : ℤ) : ℚ) = ((⌊D⌋ : ℚ)) := by rw [Int.toNat_of_nonneg h0]
  have h4 : ((⌊D⌋.toNat : ℕ) : ℚ) = ((⌊D⌋.toNat : ℤ) : ℚ) := by push_cast; ring
  rw [h4, h3]
  exact Int.floor_le D

theorem numChunks_pos (D : ℚ) (hD : 1 ≤ D) : 1 ≤ numChunks D := by
  have h1 : (1:ℤ) ≤ ⌊D⌋ := by
    exact_mod_cast Int.le_floor.mpr (by exact_mod_cast hD)
  have h2 : 1 ≤ ⌊D⌋.toNat := by omega
  unfold numChunks
  omega

/-- Membership description of the chunk list. -/
theorem chunks_of_mem (D : ℚ) (c : Seg) (hc : c ∈ chunks_of D) :
    ∃ k : ℕ, k < numChunks D ∧ c = ((600 * k : ℚ), min ((600 * k : ℚ) + 600) D) := by
  simp only [chunks_of, List.mem_map, List.mem_range] at hc
  obtain ⟨k, hk, hc⟩ := hc
  exact ⟨k, hk, hc.symm⟩

/-- Every chunk start `600 k` lies strictly before the duration. -/
theorem chunk_start_lt (D : ℚ) (k : ℕ) (hk : k < numChunks D) (hD : 0 ≤ D) :
    (600 * (k:ℚ)) < D := by
  have h1 : 600 * k < ⌊D⌋.toNat := by
    unfold numChunks at hk; omega
  have h2 : ((600 * k : ℕ) : ℚ) < ((⌊D⌋.toNat : ℚ)) := by exact_mod_cast h1
  calc (600 * (k:ℚ)) = ((600 * k : ℕ) : ℚ) := by push_cast; ring
    _ < ((⌊D⌋.toNat : ℚ)) := h2
    _ ≤ D := floor_toNat_le D hD

/-- Chunks are non-degenerate. -/
theorem chunk_wf (D : ℚ) (hD : 0 ≤ D) : ∀ c ∈ chunks_of D, c.1 < c.2 := by
  intro c hc
  obtain ⟨k, hk, rfl⟩ := chunks_of_mem D c hc
  have h := chunk_start_lt D k hk hD
  simp only [lt_min_iff]
  exact ⟨by linarith, h⟩

/-- Adjacent chunks are contiguous: each chunk's end is the next one's
start. -/
theorem chunks_chain (D : ℚ) (hD : 0 ≤ D) :
    List.Chain' (fun c c' : Seg => c.2 = c'.1) (chunks_of D) := by
  unfold chunks_of
  rw [List.chain'_map]
  cases h : numChunks D with
  | zero => simp
  | succ n =>
      rw [List.chain'_range_succ]
      intro m hm
      have hlt : (600 * ((m+1 : ℕ):ℚ)) < D :=
        chunk_start_lt D (m+1) (by omega) hD
      have hle : ((600 * (m:ℚ)) + 600) ≤ D := by push_cast at hlt ⊢; linarith
      dsimp only
      rw [min_eq_left hle]
      push_cast
      ring

/-- All chunks except the final one have length exactly 600. -/
theorem chunks_dropLast_len (D : ℚ) (hD : 0 ≤ D) :
    ∀ c ∈ (chunks_of D).dropLast, c.2 - c.1 = 600 := by
  intro c hc
  unfold chunks_of at hc
  cases h : numChunks D with
  | zero => rw [h] at hc; simp at hc
  | succ n =>
      rw [h, List.range_succ] at hc
      simp only [List.map_append, List.map_cons, List.map_nil,
        List.dropLast_concat, List.mem_map, List.mem_range] at hc
      obtain ⟨k, hk, rfl⟩ := hc
      have hlt : (600 * ((k+1 : ℕ):ℚ)) < D :=
        chunk_start_lt D (k+1) (by omega) hD
      have hle : ((600 * (k:ℚ)) + 600) ≤ D := by push_cast at hlt ⊢; linarith
      simp only [min_eq_left hle]
      ring

/-- The last chunk of a non-empty chunk list. -/
theorem chunks_getLast (D : ℚ) (h1 : 1 ≤ numChunks D) :
    (chunks_of D).getLast? =
      some ((600 * ((numChunks D - 1 : ℕ) : ℚ)),
        min (600 * ((numChunks D - 1 : ℕ) : ℚ) + 600) D) := by
  unfold chunks_of
  obtain ⟨n, hn⟩ : ∃ n, numChunks D = n + 1 := ⟨numChunks D - 1, by omega⟩
  rw [hn, List.range_succ]
  simp only [List.map_append, List.map_cons, List.map_nil]
  rw [List.getLast?_concat]
  simp

/-- The first chunk starts at 0. -/
theorem chunks_head (D : ℚ) (h1 : 1 ≤ numChunks D) :
    (chunks_of D).head? = some ((0:ℚ), min 600 D) := by
  unfold chunks_of
  obtain ⟨n, hn⟩ : ∃ n, numChunks D = n + 1 := ⟨numChunks D - 1, by omega⟩
  rw [hn, List.range_succ_eq_map]
  simp

/-- `segUnion` distributes over cons. -/
theorem segUnion_cons (s : Seg) (l : List Seg) :
    segUnion (s :: l) = Set.Ico s.1 s.2 ∪ segUnion l := rfl

/-- `segUnion` distributes over append. -/
theorem segUnion_append (l₁ l₂ : List Seg) :
    segUnion (l₁ ++ l₂) = segUnion l₁ ∪ segUnion l₂ := by
  induction l₁ with
  | nil => simp [segUnion]
  | cons s t ih =>
      rw [List.cons_append, segUnion_cons, segUnion_cons, ih, Set.union_assoc]

/-- Membership in `segUnion`. -/
theorem segUnion_mem (l : List Seg) (q : ℚ) :
    q ∈ segUnion l ↔ ∃ s ∈ l, q ∈ Set.Ico s.1 s.2 := by
  induction l with
  | nil => simp [segUnion]
  | cons s t ih =>
      rw [segUnion_cons]
      simp [ih]

/-- `segUnion` only depends on the multiset of intervals. -/
theorem segUnion_perm (l l' : List Seg) (h : l.Perm l') :
    segUnion l = segUnion l' := by
  ext q
  rw [segUnion_mem, segUnion_mem]
  constructor
  · rintro ⟨s, hs, hq⟩; exact ⟨s, h.mem_iff.mp hs, hq⟩
  · rintro ⟨s, hs, hq⟩; exact ⟨s, h.mem_iff.mpr hs, hq⟩

/-- The head start of a contiguous interval list is at most its last end. -/
theorem contig_head_le_last : ∀ (cs : List Seg) (a b : ℚ),
    List.Chain' (fun c c' : Seg => c.2 = c'.1) cs →
    (∀ c ∈ cs, c.1 ≤ c.2) →
    cs.head?.map Prod.fst = some a →
    cs.getLast?.map Prod.snd = some b →
    a ≤ b
  | [], a, b, _, _, h, _ => by simp at h
  | [c], a, b, _, hwf, ha, hb => by
      simp at ha hb
      subst ha hb
      exact hwf c (by simp)
  | c :: c' :: t, a, b, hch, hwf, ha, hb => by
      simp at ha
      subst ha
      rw [List.getLast?_cons_cons] at hb
      have h2 := contig_head_le_last (c' :: t) c'.1 b hch.tail
        (fun x hx => hwf x (List.mem_cons_of_mem _ hx)) (by simp) hb
      have h3 : c.2 = c'.1 := List.chain'_cons.mp hch |>.1
      have h4 : c.1 ≤ c.2 := hwf c (by simp)
      linarith

/-- A contiguous list of well-formed intervals covers exactly the interval
from its first start to its last end. -/
theorem contig_segUnion : ∀ (cs : List Seg) (a b : ℚ),
    List.Chain' (fun c c' : Seg => c.2 = c'.1) cs →
    (∀ c ∈ cs, c.1 ≤ c.2) →
    cs.head?.map Prod.fst = some a →
    cs.getLast?.map Prod.snd = some b →
    segUnion cs = Set.Ico a b
  | [], a, b, _, _, h, _ => by simp at h
  | [c], a, b, _, _, ha, hb => by
      simp at ha hb
      subst ha hb
      simp [segUnion]
  | c :: c' :: t, a, b, hch, hwf, ha, hb => by
      simp at ha
      subst ha
      rw [List.getLast?_cons_cons] at hb
      have ih := contig_segUnion (c' :: t) c'.1 b hch.tail
        (fun x hx => hwf x (List.mem_cons_of_mem _ hx)) (by simp) hb
      have h3 : c.2 = c'.1 := List.chain'_cons.mp hch |>.1
      have h4 : c.1 ≤ c.2 := hwf c (by simp)
      have h5 : c'.1 ≤ b := contig_head_le_last (c' :: t) c'.1 b hch.tail
        (fun x hx => hwf x (List.mem_cons_of_mem _ hx)) (by simp) hb
      rw [segUnion_cons, ih, ← h3]
      exact Set.Ico_union_Ico_eq_Ico h4 (h3 ▸ h5)

/- ### Claim C6: the chunk list of process_long_video -/

/-- Counterexample for C6: for the duration `4801/2 = 2400.5` (> 1800), the
chunk list stops at 2400, so the time 2400, although in `[0, D)`, lies in
no chunk: the chunks do not cover `[0, D)`. -/
theorem c6_counterexample :
    (1800 : ℚ) < 4801/2 ∧
    chunks_of (4801/2 : ℚ) = [(0,600),(600,1200),(1200,1800),(1800,2400)] ∧
    (0:ℚ) ≤ 2400 ∧ (2400 : ℚ) < 4801/2 ∧
    ∀ c ∈ chunks_of (4801/2 : ℚ), (2400:ℚ) ∉ Set.Ico c.1 c.2 := by
  have h0 : ⌊(4801:ℚ)/2⌋ = 2400 := by
    rw [Int.floor_eq_iff]
    norm_num
  have h : numChunks ((4801:ℚ)/2) = 4 := by rw [numChunks, h0]; decide
  have hc : chunks_of (4801/2 : ℚ) =
      [(0,600),(600,1200),(1200,1800),(1800,2400)] := by
    rw [chunks_of, h]
    norm_num [List.range_succ, min_def]
  refine ⟨by norm_num, hc, by norm_num, by norm_num, ?_⟩
  rw [hc]
  intro c hc'
  simp only [List.mem_cons, List.not_mem_nil, or_false] at hc'
  rcases hc' with rfl | rfl | rfl | rfl <;> simp [Set.mem_Ico] <;> norm_num

/-- C6 amended: for every duration D > 1800 the chunk list is non-empty,
starts at 0, is contiguous and non-overlapping, proceeds in steps of 600
(every chunk except the final one has length exactly 600, the final one
has positive length at most 600), and covers exactly
`[0, min D (600 * numChunks D))` — i.e. all of `[0, D)` except that when
`⌊D⌋` is a positive multiple of 600 and `D > ⌊D⌋` the final sliver
`[600 * numChunks D, D)` is not covered. -/
theorem c6_amended (D : ℚ) (hD : 1800 < D) :
    chunks_of D ≠ [] ∧
    (chunks_of D).head?.map Prod.fst = some 0 ∧
    List.Chain' (fun c c' : Seg => c.2 = c'.1) (chunks_of D) ∧
    (∀ c ∈ (chunks_of D).dropLast, c.2 - c.1 = 600) ∧
    (∀ c ∈ chunks_of D, 0 < c.2 - c.1 ∧ c.2 - c.1 ≤ 600) ∧
    segUnion (chunks_of D) = Set.Ico 0 (min D (600 * (numChunks D : ℚ))) := by
  have hD0 : (0:ℚ) ≤ D := by linarith
  have h1 : 1 ≤ numChunks D := numChunks_pos D (by linarith)
  have hne : chunks_of D ≠ [] := by
    intro h
    have := chunks_head D h1
    rw [h] at this
    simp at this
  refine ⟨hne, ?_, chunks_chain D hD0, chunks_dropLast_len D hD0, ?_, ?_⟩
  · rw [chunks_head D h1]; rfl
  · intro c hc
    obtain ⟨k, hk, rfl⟩ := chunks_of_mem D c hc
    have hlt := chunk_start_lt D k hk hD0
    have hmin : (600 * (k:ℚ)) < min ((600 * (k:ℚ)) + 600) D := by
      rw [lt_min_iff]; exact ⟨by linarith, hlt⟩
    have hle : min ((600 * (k:ℚ)) + 600) D ≤ (600 * (k:ℚ)) + 600 :=
      min_le_left _ _
    dsimp only
    exact ⟨by linarith, by linarith⟩
  · have hlast := chunks_getLast D h1
    have hhead := chunks_head D h1
    have hlastend : min (600 * ((numChunks D - 1 : ℕ) : ℚ) + 600) D =
        min D (600 * (numChunks D : ℚ)) := by
      have : (600 * ((numChunks D - 1 : ℕ) : ℚ) + 600) = 600 * (numChunks D : ℚ) := by
        have h2 : ((numChunks D - 1 : ℕ) : ℚ) = (numChunks D : ℚ) - 1 := by
          have : (1:ℕ) ≤ numChunks D := h1
          push_cast [Nat.cast_sub this]
          ring
        rw [h2]; ring
      rw [this, min_comm]
    rw [← hlastend]
    refine contig_segUnion (chunks_of D) 0 _ (chunks_chain D hD0)
      (fun c hc => le_of_lt (chunk_wf D hD0 c hc)) ?_ ?_
    · rw [hhead]; rfl
    · rw [hlast]; rfl

/-- Witness for C6 amended at D = 2000 (where the cover is all of
`[0, 2000)` since `min 2000 (600 * 4) = 2000`). -/
theorem c6_witness :
    chunks_of 2000 ≠ [] ∧
    (chunks_of 2000).head?.map Prod.fst = some 0 ∧
    List.Chain' (fun c c' : Seg => c.2 = c'.1) (chunks_of 2000) ∧
    (∀ c ∈ (chunks_of 2000).dropLast, c.2 - c.1 = 600) ∧
    (∀ c ∈ chunks_of 2000, 0 < c.2 - c.1 ∧ c.2 - c.1 ≤ 600) ∧
    segUnion (chunks_of 2000) = Set.Ico 0 (min 2000 (600 * (numChunks 2000 : ℚ))) :=
  c6_amended 2000 (by norm_num)

/- ### Claim C3: keep-segments and silences partition [0, D) -/

/-- `gapsBetween` ignores the first component of the head. -/
theorem gapsBetween_cons_eq (u v : Seg) (h : u.2 = v.2) (ys : List Seg) :
    gapsBetween (u :: ys) = gapsBetween (v :: ys) := by
  cases ys with
  | nil => rfl
  | cons w t => simp [gapsBetween, h]

/-- `gapsBetween` of a list with one interval appended. -/
theorem gapsBetween_concat : ∀ (x : Seg) (X : List Seg) (y : Seg),
    gapsBetween ((x :: X) ++ [y]) =
      gapsBetween (x :: X) ++ [(((x :: X).getLast (List.cons_ne_nil x X)).2, y.1)]
  | x, [], y => by simp [gapsBetween]
  | x, x' :: X', y => by
      have ih := gapsBetween_concat x' X' y
      simp only [List.cons_append] at ih ⊢
      rw [show gapsBetween (x :: x' :: (X' ++ [y])) =
          (x.2, x'.1) :: gapsBetween (x' :: (X' ++ [y])) from rfl, ih]
      rfl

/-- The timeline fence alternating keep-gaps and silences: from `t`, the gap
to the first silence, that silence, and so on, ending with the gap to `D`.
Helper for reasoning about the keep-planner. -/
def fence (D : ℚ) : ℚ → List Seg → List Seg
  | t, [] => [(t, D)]
  | t, s :: S' => (t, s.1) :: s :: fence D s.2 S'

theorem fence_head (D t : ℚ) (S : List Seg) :
    ∃ z tl, fence D t S = (t, z) :: tl := by
  cases S with
  | nil => exact ⟨D, [], rfl⟩
  | cons s S' => exact ⟨s.1, _, rfl⟩

/-- The fence is weakly separated along the timeline. -/
theorem fence_chain (D : ℚ) : ∀ (t : ℚ) (S : List Seg),
    List.Chain' (fun a b : Seg => a.2 ≤ b.1) (fence D t S)
  | _, [] => List.chain'_singleton _
  | t, s :: S' => by
      have ih := fence_chain D s.2 S'
      obtain ⟨z, tl, heq⟩ := fence_head D s.2 S'
      show List.Chain' _ ((t, s.1) :: s :: fence D s.2 S')
      rw [heq] at ih ⊢
      exact List.chain'_cons.mpr ⟨le_refl _, List.chain'_cons.mpr ⟨le_refl _, ih⟩⟩

/-- All fence intervals are well-formed under the planner's hypotheses. -/
theorem fence_wf (D : ℚ) : ∀ (t : ℚ) (S : List Seg),
    t ≤ D →
    (∀ s ∈ S, t ≤ s.1) →
    (∀ s ∈ S, s.1 ≤ s.2) →
    (∀ s ∈ S, s.2 ≤ D) →
    List.Pairwise (fun a b : Seg => a.2 ≤ b.1) S →
    ∀ x ∈ fence D t S, x.1 ≤ x.2
  | t, [], htD, _, _, _, _ => by
      intro x hx
      rw [show fence D t [] = [(t, D)] from rfl] at hx
      simp at hx
      subst hx
      exact htD
  | t, s :: S', htD, hlb, hwf, hub, hpw => by
      intro x hx
      have hts : t ≤ s.1 := hlb s (by simp)
      have hs : s.1 ≤ s.2 := hwf s (by simp)
      have hsD : s.2 ≤ D := hub s (by simp)
      have ih := fence_wf D s.2 S' hsD
        (fun y hy => (List.pairwise_cons.mp hpw).1 y hy)
        (fun y hy => hwf y (List.mem_cons_of_mem _ hy))
        (fun y hy => hub y (List.mem_cons_of_mem _ hy))
        (List.pairwise_cons.mp hpw).2
      rw [show fence D t (s :: S') = (t, s.1) :: s :: fence D s.2 S' from rfl] at hx
      rcases List.mem_cons.mp hx with rfl | hx'
      · exact hts
      · rcases List.mem_cons.mp hx' with rfl | hx''
        · exact hs
        · exact ih x hx''

/-- The fence covers exactly `[t, D)`. -/
theorem fence_segUnion (D : ℚ) : ∀ (t : ℚ) (S : List Seg),
    t ≤ D →
    (∀ s ∈ S, t ≤ s.1) →
    (∀ s ∈ S, s.1 ≤ s.2) →
    (∀ s ∈ S, s.2 ≤ D) →
    List.Pairwise (fun a b : Seg => a.2 ≤ b.1) S →
    segUnion (fence D t S) = Set.Ico t D
  | t, [], htD, _, _, _, _ => by simp [fence, segUnion]
  | t, s :: S', htD, hlb, hwf, hub, hpw => by
      have hts : t ≤ s.1 := hlb s (by simp)
      have hs : s.1 ≤ s.2 := hwf s (by simp)
      have hsD : s.2 ≤ D := hub s (by simp)
      have ih := fence_segUnion D s.2 S' hsD
        (fun y hy => (List.pairwise_cons.mp hpw).1 y hy)
        (fun y hy => hwf y (List.mem_cons_of_mem _ hy))
        (fun y hy => hub y (List.mem_cons_of_mem _ hy))
        (List.pairwise_cons.mp hpw).2
      show segUnion ((t, s.1) :: s :: fence D s.2 S') = _
      rw [segUnion_cons, segUnion_cons, ih]
      rw [Set.Ico_union_Ico_eq_Ico hs hsD]
      exact Set.Ico_union_Ico_eq_Ico hts (le_trans hs hsD)

/-- The sentinel gap list together with the silences is a permutation of
the fence. -/
theorem fence_perm (D : ℚ) : ∀ (t : ℚ) (S : List Seg),
    (gapsBetween ((t,t) :: S ++ [(D,D)]) ++ S).Perm (fence D t S)
  | t, [] => by simp [gapsBetween, fence]
  | t, s :: S' => by
      have ih := fence_perm D s.2 S'
      have h1 : gapsBetween ((t,t) :: (s :: S') ++ [(D,D)]) =
          (t, s.1) :: gapsBetween ((s.2, s.2) :: (S' ++ [(D,D)])) := by
        rw [show ((t,t) : Seg) :: (s :: S') ++ [((D:ℚ),(D:ℚ))] =
            (t,t) :: s :: (S' ++ [(D,D)]) from by simp]
        rw [show gapsBetween (((t,t) : Seg) :: s :: (S' ++ [(D,D)])) =
            ((t:ℚ), s.1) :: gapsBetween (s :: (S' ++ [(D,D)])) from rfl]
        rw [gapsBetween_cons_eq s (s.2, s.2) rfl]
      rw [show gapsBetween ((t,t) :: (s :: S') ++ [(D,D)]) ++ (s :: S') =
          (t, s.1) :: (gapsBetween ((s.2,s.2) :: (S' ++ [(D,D)])) ++ (s :: S'))
          from by rw [h1]; rfl]
      refine List.Perm.trans (List.Perm.cons _ List.perm_middle) ?_
      rw [show fence D t (s :: S') = (t, s.1) :: s :: fence D s.2 S' from rfl]
      exact List.Perm.cons _ (List.Perm.cons _ ih)

/-- Weak separation plus well-formedness gives pairwise separation. -/
theorem chainSep_pairwise : ∀ (l : List Seg),
    (∀ x ∈ l, x.1 ≤ x.2) →
    List.Chain' (fun a b : Seg => a.2 ≤ b.1) l →
    List.Pairwise (fun a b : Seg => a.2 ≤ b.1) l
  | [], _, _ => List.Pairwise.nil
  | [x], _, _ => by simp
  | x :: y :: t, hwf, hch => by
      have hxy : x.2 ≤ y.1 := (List.chain'_cons.mp hch).1
      have ih := chainSep_pairwise (y :: t)
        (fun z hz => hwf z (List.mem_cons_of_mem _ hz)) (List.chain'_cons.mp hch).2
      refine List.Pairwise.cons ?_ ih
      intro z hz
      rcases List.mem_cons.mp hz with rfl | hz'
      · exact hxy
      · have h1 : y.2 ≤ z.1 := (List.pairwise_cons.mp ih).1 z hz'
        have h2 : y.1 ≤ y.2 := hwf y (by simp)
        linarith

/-- Separated intervals are disjoint as half-open sets. -/
theorem sep_disjoint (a b : Seg) (h : a.2 ≤ b.1) :
    Disjoint (Set.Ico a.1 a.2) (Set.Ico b.1 b.2) := by
  rw [Set.disjoint_left]
  rintro x ⟨_, hx2⟩ ⟨hx3, _⟩
  linarith

/-- C3: for every sorted, disjoint, well-formed silence sequence S and total
duration D bounding it, the keep-sequence computed from S (the single
interval (0,D) when S is empty) together with S partitions [0, D) exactly:
the intervals of the two sequences together cover exactly [0, D) and are
pairwise disjoint. -/
theorem c3_plan_partitions (S : List Seg) (D : ℚ)
    (hpair : List.Pairwise (fun a b : Seg => a.2 ≤ b.1) S)
    (hwf : ∀ s ∈ S, 0 ≤ s.1 ∧ s.1 < s.2)
    (hD : ∀ s ∈ S, s.2 ≤ D) :
    segUnion (plan_segments S D ++ S) = Set.Ico 0 D ∧
    List.Pairwise (fun a b : Seg =>
      Disjoint (Set.Ico a.1 a.2) (Set.Ico b.1 b.2)) (plan_segments S D ++ S) := by
  cases S with
  | nil =>
      constructor
      · simp [plan_segments, segUnion]
      · simp [plan_segments]
  | cons s S' =>
      obtain ⟨hs0, hs12⟩ := hwf s (by simp)
      have hsD : s.2 ≤ D := hD s (by simp)
      have h0D : (0:ℚ) ≤ D := by linarith
      obtain ⟨L, hL⟩ : ∃ L, (s :: S').getLast? = some L :=
        ⟨(s :: S').getLast (List.cons_ne_nil s S'),
          List.getLast?_eq_getLast _ _⟩
      have hL' : (s :: S').getLast (List.cons_ne_nil s S') = L := by
        have h2 := List.getLast?_eq_getLast (s :: S') (List.cons_ne_nil s S')
        rw [h2] at hL
        injection hL
      have hLmem : L ∈ s :: S' := hL' ▸ List.getLast_mem _
      have hLD : L.2 ≤ D := hD L hLmem
      have hgap2 : gapsBetween ((s :: S') ++ [((D:ℚ),(D:ℚ))]) =
          gapsBetween (s :: S') ++ [(L.2, D)] := by
        have h := gapsBetween_concat s S' ((D:ℚ),(D:ℚ))
        rw [hL'] at h
        exact h
      have hKS : gapsBetween ((0,0) :: (s :: S') ++ [(D,D)]) =
          (((0:ℚ), s.1) :: gapsBetween (s :: S')) ++ [(L.2, D)] :=
        calc gapsBetween ((0,0) :: (s :: S') ++ [(D,D)])
            = ((0:ℚ), s.1) :: gapsBetween ((s :: S') ++ [((D:ℚ),(D:ℚ))]) := rfl
          _ = ((0:ℚ), s.1) :: (gapsBetween (s :: S') ++ [(L.2, D)]) := by
              rw [hgap2]
          _ = (((0:ℚ), s.1) :: gapsBetween (s :: S')) ++ [(L.2, D)] := by simp
      have hkeep : keep_segments (s :: S') D =
          ((if s.1 > 0 then [((0:ℚ), s.1)] else []) ++ gapsBetween (s :: S')) ++
          (if L.2 < D then [(L.2, D)] else []) := by
        unfold keep_segments
        dsimp only
        rw [hL]
      have h_lead_sub : List.Sublist (if s.1 > 0 then [((0:ℚ), s.1)] else [])
          [((0:ℚ), s.1)] := by
        by_cases h : s.1 > 0
        · rw [if_pos h]
        · rw [if_neg h]; exact List.nil_sublist _
      have h_trail_sub : List.Sublist (if L.2 < D then [(L.2, D)] else [])
          [(L.2, D)] := by
        by_cases h : L.2 < D
        · rw [if_pos h]
        · rw [if_neg h]; exact List.nil_sublist _
      have hsub : List.Sublist (keep_segments (s :: S') D)
          (gapsBetween ((0,0) :: (s :: S') ++ [(D,D)])) := by
        rw [hkeep, hKS]
        exact List.Sublist.append
          (List.Sublist.append h_lead_sub (List.Sublist.refl _)) h_trail_sub
      have hUlead : segUnion (if s.1 > 0 then [((0:ℚ), s.1)] else []) =
          segUnion [((0:ℚ), s.1)] := by
        by_cases h : s.1 > 0
        · rw [if_pos h]
        · rw [if_neg h]
          have hz : s.1 = 0 := le_antisymm (not_lt.mp h) hs0
          simp [segUnion, hz]
      have hUtrail : segUnion (if L.2 < D then [(L.2, D)] else []) =
          segUnion [(L.2, D)] := by
        by_cases h : L.2 < D
        · rw [if_pos h]
        · rw [if_neg h]
          have hz : L.2 = D := le_antisymm hLD (not_lt.mp h)
          simp [segUnion, hz]
      have hUkeep : segUnion (keep_segments (s :: S') D) =
          segUnion (gapsBetween ((0,0) :: (s :: S') ++ [(D,D)])) := by
        rw [hkeep, hKS,
          show (((0:ℚ), s.1) :: gapsBetween (s :: S')) =
            [((0:ℚ), s.1)] ++ gapsBetween (s :: S') from rfl,
          segUnion_append, segUnion_append, segUnion_append, segUnion_append,
          hUlead, hUtrail]
      have hperm := fence_perm D 0 (s :: S')
      have hUfence := fence_segUnion D 0 (s :: S') h0D
        (fun x hx => (hwf x hx).1) (fun x hx => le_of_lt (hwf x hx).2) hD hpair
      have hPWfence : List.Pairwise (fun a b : Seg =>
          Disjoint (Set.Ico a.1 a.2) (Set.Ico b.1 b.2)) (fence D 0 (s :: S')) := by
        refine List.Pairwise.imp (fun hab => sep_disjoint _ _ hab)
          (chainSep_pairwise _ ?_ (fence_chain D 0 (s :: S')))
        exact fence_wf D 0 (s :: S') h0D (fun x hx => (hwf x hx).1)
          (fun x hx => le_of_lt (hwf x hx).2) hD hpair
      have hplan : plan_segments (s :: S') D = keep_segments (s :: S') D := rfl
      constructor
      · rw [hplan, segUnion_append, hUkeep, ← segUnion_append,
          segUnion_perm _ _ hperm]
        exact hUfence
      · rw [hplan]
        refine List.Pairwise.sublist ?_
          ((hperm.pairwise_iff (fun hab => hab.symm)).mpr hPWfence)
        exact List.Sublist.append hsub (List.Sublist.refl _)

/-- Witness for C3 at S = [(1,2),(3,4)], D = 5. -/
theorem c3_witness :
    segUnion (plan_segments [((1:ℚ),2),(3,4)] 5 ++ [((1:ℚ),2),(3,4)]) =
      Set.Ico 0 5 ∧
    List.Pairwise (fun a b : Seg =>
      Disjoint (Set.Ico a.1 a.2) (Set.Ico b.1 b.2))
      (plan_segments [((1:ℚ),2),(3,4)] 5 ++ [((1:ℚ),2),(3,4)]) :=
  c3_plan_partitions [((1:ℚ),2),(3,4)] 5
    (by norm_num [List.pairwise_cons])
    (by intro s hs
        simp only [List.mem_cons, List.not_mem_nil, or_false] at hs
        rcases hs with rfl | rfl <;> norm_num)
    (by intro s hs
        simp only [List.mem_cons, List.not_mem_nil, or_false] at hs
        rcases hs with rfl | rfl <;> norm_num)

/- ### Claims C5 and C9: the interval merge -/

instance leLex.isTotal : IsTotal Seg leLex := ⟨by
  intro a b
  rcases lt_trichotomy a.1 b.1 with h | h | h
  · exact Or.inl (Or.inl h)
  · rcases le_total a.2 b.2 with h2 | h2
    · exact Or.inl (Or.inr ⟨h, h2⟩)
    · exact Or.inr (Or.inr ⟨h.symm, h2⟩)
  · exact Or.inr (Or.inl h)⟩

instance leLex.isTrans : IsTrans Seg leLex := ⟨by
  intro a b c hab hbc
  rcases hab with h1 | ⟨h1, h1'⟩ <;> rcases hbc with h2 | ⟨h2, h2'⟩
  · exact Or.inl (by linarith)
  · exact Or.inl (by rw [← h2]; exact h1)
  · exact Or.inl (by rw [h1]; exact h2)
  · exact Or.inr ⟨by rw [h1, h2], le_trans h1' h2'⟩⟩

instance leLex.isAntisymm : IsAntisymm Seg leLex := ⟨by
  intro a b hab hba
  rcases hab with h1 | ⟨h1, h1'⟩ <;> rcases hba with h2 | ⟨h2, h2'⟩
  · exact absurd h2 (lt_asymm h1)
  · exact absurd h1 (by rw [h2]; exact lt_irrefl _)
  · exact absurd h2 (by rw [h1]; exact lt_irrefl _)
  · exact Prod.ext h1 (le_antisymm h1' h2')⟩

theorem sortLex_sorted (l : List Seg) : List.Sorted leLex (sortLex l) :=
  List.sorted_insertionSort leLex l

theorem sortLex_perm (l : List Seg) : (sortLex l).Perm l :=
  List.perm_insertionSort leLex l

/-- The sorted list has non-decreasing starts. -/
theorem sortLex_pairwise_fst (l : List Seg) :
    List.Pairwise (fun a b : Seg => a.1 ≤ b.1) (sortLex l) :=
  (sortLex_sorted l).imp (fun hab => by
    rcases hab with h | ⟨h, _⟩
    · exact le_of_lt h
    · exact le_of_eq h)

theorem sweep_nil (acc : Seg) : sweep acc [] = [acc] := rfl

theorem sweep_cons (acc s : Seg) (t : List Seg) :
    sweep acc (s :: t) =
      if s.1 ≤ acc.2 then sweep (acc.1, max acc.2 s.2) t
      else acc :: sweep s t := rfl

/-- The first interval emitted by the sweep starts where the accumulator
does, with an end at least the accumulator's. -/
theorem sweep_head : ∀ (l : List Seg) (acc : Seg),
    ∃ e tl, sweep acc l = (acc.1, e) :: tl ∧ acc.2 ≤ e
  | [], acc => ⟨acc.2, [], rfl, le_refl _⟩
  | s :: t, acc => by
      by_cases h : s.1 ≤ acc.2
      · obtain ⟨e, tl, heq, hle⟩ := sweep_head t (acc.1, max acc.2 s.2)
        refine ⟨e, tl, ?_, le_trans (le_max_left _ _) hle⟩
        rw [sweep_cons, if_pos h]
        exact heq
      · exact ⟨acc.2, sweep s t, by rw [sweep_cons, if_neg h], le_refl _⟩

/-- Every interval emitted by the sweep starts at or after the
accumulator's start. -/
theorem sweep_lb : ∀ (l : List Seg) (acc : Seg),
    (∀ z ∈ l, acc.1 ≤ z.1) →
    List.Pairwise (fun a b : Seg => a.1 ≤ b.1) l →
    ∀ o ∈ sweep acc l, acc.1 ≤ o.1
  | [], acc, _, _ => by
      intro o ho
      rw [sweep_nil] at ho
      simp at ho
      subst ho
      exact le_refl _
  | s :: t, acc, hlb, hpw => by
      intro o ho
      rw [sweep_cons] at ho
      by_cases h : s.1 ≤ acc.2
      · rw [if_pos h] at ho
        exact sweep_lb t (acc.1, max acc.2 s.2)
          (fun z hz => hlb z (List.mem_cons_of_mem _ hz))
          (List.pairwise_cons.mp hpw).2 o ho
      · rw [if_neg h] at ho
        rcases List.mem_cons.mp ho with rfl | ho'
        · exact le_refl _
        · have hs1 : acc.1 ≤ s.1 := hlb s (by simp)
          exact le_trans hs1 (sweep_lb t s (List.pairwise_cons.mp hpw).1
            (List.pairwise_cons.mp hpw).2 o ho')

/-- The sweep's output has non-decreasing starts. -/
theorem sweep_pairwise_fst : ∀ (l : List Seg) (acc : Seg),
    (∀ z ∈ l, acc.1 ≤ z.1) →
    List.Pairwise (fun a b : Seg => a.1 ≤ b.1) l →
    List.Pairwise (fun a b : Seg => a.1 ≤ b.1) (sweep acc l)
  | [], acc, _, _ => by rw [sweep_nil]; simp
  | s :: t, acc, hlb, hpw => by
      rw [sweep_cons]
      by_cases h : s.1 ≤ acc.2
      · rw [if_pos h]
        exact sweep_pairwise_fst t (acc.1, max acc.2 s.2)
          (fun z hz => hlb z (List.mem_cons_of_mem _ hz))
          (List.pairwise_cons.mp hpw).2
      · rw [if_neg h]
        refine List.Pairwise.cons ?_ (sweep_pairwise_fst t s
          (List.pairwise_cons.mp hpw).1 (List.pairwise_cons.mp hpw).2)
        intro o ho
        exact le_trans (hlb s (by simp)) (sweep_lb t s
          (List.pairwise_cons.mp hpw).1 (List.pairwise_cons.mp hpw).2 o ho)

/-- Consecutive merged intervals are strictly separated: the next starts
strictly after the previous ends. -/
theorem sweep_chain : ∀ (l : List Seg) (acc : Seg),
    List.Chain' (fun a b : Seg => a.2 < b.1) (sweep acc l)
  | [], acc => by rw [sweep_nil]; exact List.chain'_singleton _
  | s :: t, acc => by
      rw [sweep_cons]
      by_cases h : s.1 ≤ acc.2
      · rw [if_pos h]
        exact sweep_chain t (acc.1, max acc.2 s.2)
      · rw [if_neg h]
        obtain ⟨e, tl, heq, _⟩ := sweep_head t s
        have hch := sweep_chain t s
        rw [heq] at hch ⊢
        exact List.chain'_cons.mpr ⟨not_le.mp h, hch⟩

/-- Extending an interval to the maximum absorbs an overlapping interval. -/
theorem Ico_absorb (a b s e : ℚ) (h1 : a ≤ s) (h2 : s ≤ b) :
    Set.Ico a (max b e) = Set.Ico a b ∪ Set.Ico s e := by
  ext x
  simp only [Set.mem_Ico, Set.mem_union, lt_max_iff]
  constructor
  · rintro ⟨hax, hx⟩
    rcases hx with hxb | hxe
    · exact Or.inl ⟨hax, hxb⟩
    · by_cases hxb : x < b
      · exact Or.inl ⟨hax, hxb⟩
      · exact Or.inr ⟨by linarith [not_lt.mp hxb], hxe⟩
  · rintro (⟨hax, hxb⟩ | ⟨hsx, hxe⟩)
    · exact ⟨hax, Or.inl hxb⟩
    · exact ⟨le_trans h1 hsx, Or.inr hxe⟩

/-- The sweep preserves the covered set of time points. -/
theorem sweep_segUnion : ∀ (l : List Seg) (acc : Seg),
    (∀ z ∈ l, acc.1 ≤ z.1) →
    List.Pairwise (fun a b : Seg => a.1 ≤ b.1) l →
    segUnion (sweep acc l) = Set.Ico acc.1 acc.2 ∪ segUnion l
  | [], acc, _, _ => by
      rw [sweep_nil, segUnion_cons]
  | s :: t, acc, hlb, hpw => by
      rw [sweep_cons]
      by_cases h : s.1 ≤ acc.2
      · rw [if_pos h]
        rw [sweep_segUnion t (acc.1, max acc.2 s.2)
          (fun z hz => hlb z (List.mem_cons_of_mem _ hz))
          (List.pairwise_cons.mp hpw).2]
        rw [segUnion_cons]
        rw [show ((acc.1, max acc.2 s.2) : Seg).1 = acc.1 from rfl,
          show ((acc.1, max acc.2 s.2) : Seg).2 = max acc.2 s.2 from rfl]
        rw [Ico_absorb acc.1 acc.2 s.1 s.2 (hlb s (by simp)) h]
        rw [Set.union_assoc]
      · rw [if_neg h]
        rw [segUnion_cons, sweep_segUnion t s (List.pairwise_cons.mp hpw).1
          (List.pairwise_cons.mp hpw).2, segUnion_cons]

/-- If a later interval `y` chains back to the current accumulator, the
accumulator's group absorbs everything up to and including `y`. -/
theorem sweep_group : ∀ (l₁ : List Seg) (y : Seg) (l₂ : List Seg) (acc : Seg),
    y.1 ≤ acc.2 →
    (∀ z ∈ l₁ ++ y :: l₂, acc.1 ≤ z.1) →
    List.Pairwise (fun a b : Seg => a.1 ≤ b.1) (l₁ ++ y :: l₂) →
    ∃ o ∈ sweep acc (l₁ ++ y :: l₂), o.1 = acc.1 ∧ acc.2 ≤ o.2 ∧ y.2 ≤ o.2
  | [], y, l₂, acc, hy, hlb, hpw => by
      rw [List.nil_append, sweep_cons, if_pos hy]
      obtain ⟨e, tl, heq, hle⟩ := sweep_head l₂ (acc.1, max acc.2 y.2)
      refine ⟨(acc.1, e), ?_, rfl, ?_, ?_⟩
      · rw [heq]; simp
      · exact le_trans (le_max_left _ _) hle
      · exact le_trans (le_max_right _ _) hle
  | z :: l₁, y, l₂, acc, hy, hlb, hpw => by
      have hzy : z.1 ≤ y.1 :=
        (List.pairwise_cons.mp hpw).1 y (by simp)
      have hz : z.1 ≤ acc.2 := le_trans hzy hy
      rw [List.cons_append, sweep_cons, if_pos hz]
      obtain ⟨o, ho, h1, h2, h3⟩ := sweep_group l₁ y l₂ (acc.1, max acc.2 z.2)
        (le_trans hy (le_max_left _ _))
        (fun w hw => hlb w (List.mem_cons_of_mem _ hw))
        (List.pairwise_cons.mp hpw).2
      exact ⟨o, ho, h1, le_trans (le_max_left _ _) h2, h3⟩

/-- Any two sorted inputs `x` before `y` with `y.start ≤ x.end` end in
one common merged interval covering both. -/
theorem sweep_pair : ∀ (l₁ : List Seg) (x : Seg) (l₂ : List Seg) (y : Seg)
    (l₃ : List Seg) (acc : Seg),
    y.1 ≤ x.2 →
    (∀ z ∈ l₁ ++ x :: (l₂ ++ y :: l₃), acc.1 ≤ z.1) →
    List.Pairwise (fun a b : Seg => a.1 ≤ b.1) (l₁ ++ x :: (l₂ ++ y :: l₃)) →
    ∃ o ∈ sweep acc (l₁ ++ x :: (l₂ ++ y :: l₃)),
      o.1 ≤ x.1 ∧ x.2 ≤ o.2 ∧ o.1 ≤ y.1 ∧ y.2 ≤ o.2
  | [], x, l₂, y, l₃, acc, hyx, hlb, hpw => by
      rw [List.nil_append] at *
      have hxy1 : x.1 ≤ y.1 :=
        (List.pairwise_cons.mp hpw).1 y (by simp)
      by_cases h : x.1 ≤ acc.2
      · rw [sweep_cons, if_pos h]
        obtain ⟨o, ho, h1, h2, h3⟩ := sweep_group l₂ y l₃ (acc.1, max acc.2 x.2)
          (le_trans hyx (le_max_right _ _))
          (fun w hw => hlb w (List.mem_cons_of_mem _ hw))
          (List.pairwise_cons.mp hpw).2
        refine ⟨o, ho, ?_, ?_, ?_, h3⟩
        · rw [h1]; exact hlb x (by simp)
        · exact le_trans (le_max_right _ _) h2
        · rw [h1]
          exact hlb y (List.mem_cons_of_mem _ (by simp))
      · rw [sweep_cons, if_neg h]
        obtain ⟨o, ho, h1, h2, h3⟩ := sweep_group l₂ y l₃ x hyx
          (List.pairwise_cons.mp hpw).1 (List.pairwise_cons.mp hpw).2
        refine ⟨o, List.mem_cons_of_mem _ ho, le_of_eq h1, h2, ?_, h3⟩
        rw [h1]
        exact hxy1
  | z :: l₁, x, l₂, y, l₃, acc, hyx, hlb, hpw => by
      rw [List.cons_append]
      by_cases h : z.1 ≤ acc.2
      · rw [sweep_cons, if_pos h]
        obtain ⟨o, ho, h1, h2, h3, h4⟩ := sweep_pair l₁ x l₂ y l₃
          (acc.1, max acc.2 z.2) hyx
          (fun w hw => hlb w (List.mem_cons_of_mem _ hw))
          (List.pairwise_cons.mp hpw).2
        exact ⟨o, ho, h1, h2, h3, h4⟩
      · rw [sweep_cons, if_neg h]
        obtain ⟨o, ho, h1, h2, h3, h4⟩ := sweep_pair l₁ x l₂ y l₃ z hyx
          (List.pairwise_cons.mp hpw).1 (List.pairwise_cons.mp hpw).2
        exact ⟨o, List.mem_cons_of_mem _ ho, h1, h2, h3, h4⟩

/-- C5: the merge returns a sequence sorted by start whose consecutive
intervals satisfy next.start > prev.end; any two inputs x before y in the
sorted order with y.start ≤ x.end are collapsed into one common output
interval spanning both; and the merged output covers exactly the same set
of time points as the input. -/
theorem c5_merge_properties (l : List Seg) :
    List.Pairwise (fun a b : Seg => a.1 ≤ b.1) (merge_segments l) ∧
    List.Chain' (fun a b : Seg => a.2 < b.1) (merge_segments l) ∧
    (∀ l₁ x l₂ y l₃, sortLex l = l₁ ++ x :: l₂ ++ y :: l₃ → y.1 ≤ x.2 →
      ∃ o ∈ merge_segments l,
        o.1 ≤ x.1 ∧ x.2 ≤ o.2 ∧ o.1 ≤ y.1 ∧ y.2 ≤ o.2) ∧
    segUnion (merge_segments l) = segUnion l := by
  cases hs : sortLex l with
  | nil =>
      have hl : l = [] := (hs ▸ sortLex_perm l).symm.eq_nil
      have hm : merge_segments l = [] := by unfold merge_segments; rw [hs]
      refine ⟨by rw [hm]; simp, by rw [hm]; simp, ?_, by rw [hm, hl]⟩
      intro l₁ x l₂ y l₃ hdec _
      exact absurd hdec.symm (by simp)
  | cons x0 t =>
      have hmerge : merge_segments l = sweep x0 t := by
        unfold merge_segments; rw [hs]
      have hpwS : List.Pairwise (fun a b : Seg => a.1 ≤ b.1) (x0 :: t) :=
        hs ▸ sortLex_pairwise_fst l
      have hlb : ∀ z ∈ t, x0.1 ≤ z.1 := (List.pairwise_cons.mp hpwS).1
      have hpwT := (List.pairwise_cons.mp hpwS).2
      refine ⟨?_, ?_, ?_, ?_⟩
      · rw [hmerge]; exact sweep_pairwise_fst t x0 hlb hpwT
      · rw [hmerge]; exact sweep_chain t x0
      · intro l₁ x l₂ y l₃ hdec hyx
        rw [hmerge]
        simp only [List.append_assoc, List.cons_append] at hdec
        cases l₁ with
        | nil =>
            rw [List.nil_append] at hdec
            injection hdec with h1 h2
            subst h1
            subst h2
            obtain ⟨o, ho, h1, h2, h3⟩ := sweep_group l₂ y l₃ x0 hyx hlb hpwT
            refine ⟨o, ho, le_of_eq h1, h2, ?_, h3⟩
            rw [h1]
            exact hlb y (by simp)
        | cons z l₁' =>
            rw [List.cons_append] at hdec
            injection hdec with h1 h2
            subst h1
            subst h2
            exact sweep_pair l₁' x l₂ y l₃ x0 hyx hlb hpwT
      · rw [hmerge, sweep_segUnion t x0 hlb hpwT, ← segUnion_cons, ← hs]
        exact segUnion_perm _ _ (sortLex_perm l)

/-- Witness for C5: the overlapping inputs (0,2) and (1,3) end in one
merged interval covering both. -/
theorem c5_witness :
    ∃ o ∈ merge_segments [((0:ℚ),2),(1,3)],
      o.1 ≤ 0 ∧ (2:ℚ) ≤ o.2 ∧ o.1 ≤ 1 ∧ (3:ℚ) ≤ o.2 :=
  (c5_merge_properties [((0:ℚ),2),(1,3)]).2.2.1 [] ((0:ℚ),2) [] ((1:ℚ),3) []
    (by decide) (by norm_num)

/-- C9: the merged result depends only on the input multiset: merging any
permutation of the input yields the same output sequence. -/
theorem c9_merge_perm_invariant (l₁ l₂ : List Seg) (h : l₁.Perm l₂) :
    merge_segments l₁ = merge_segments l₂ := by
  have hsort : sortLex l₁ = sortLex l₂ :=
    List.eq_of_perm_of_sorted
      ((sortLex_perm l₁).trans (h.trans (sortLex_perm l₂).symm))
      (sortLex_sorted l₁) (sortLex_sorted l₂)
  unfold merge_segments
  rw [hsort]

/-- Witness for C9 on a two-element shuffle. -/
theorem c9_witness :
    ([((3:ℚ),4),(1,2)] : List Seg).Perm [((1:ℚ),2),(3,4)] ∧
    merge_segments [((3:ℚ),4),(1,2)] = merge_segments [((1:ℚ),2),(3,4)] :=
  ⟨List.Perm.swap _ _ _,
    c9_merge_perm_invariant _ _ (List.Perm.swap _ _ _)⟩

/- ### Claim C2: chunked detection versus whole-track detection -/

/-- Per-chunk detection translated back to absolute time: exactly the
contribution of the chunk `(a, b)` at lines 214-217 of silence_removal.py. -/
def absSilent (runs : List Seg) (a b minLen : ℚ) : List Seg :=
  (get_silent_segments (clipRuns runs a b) (b - a) minLen).map
    (fun g => (g.1 + a, g.2 + a))

/-- `gapsBetween` commutes with mapping a function over both endpoints. -/
theorem gapsBetween_map_comp (φ : ℚ → ℚ) : ∀ (l : List Seg),
    gapsBetween (l.map (fun r : Seg => (φ r.1, φ r.2))) =
      (gapsBetween l).map (fun g : Seg => (φ g.1, φ g.2))
  | [] => rfl
  | [_] => rfl
  | a :: b :: t => by
      have ih := gapsBetween_map_comp φ (b :: t)
      simp only [List.map_cons, gapsBetween] at ih ⊢
      exact congrArg (List.cons _) ih

/-- Filtering by length commutes with a length-preserving endpoint map. -/
theorem filter_len_map_comp (φ : ℚ → ℚ) (hφ : ∀ x y : ℚ, φ y - φ x = y - x)
    (minLen : ℚ) (l : List Seg) :
    ((l.map (fun g : Seg => (φ g.1, φ g.2))).filter
        (fun g => minLen ≤ g.2 - g.1)) =
      (l.filter (fun g => minLen ≤ g.2 - g.1)).map
        (fun g : Seg => (φ g.1, φ g.2)) := by
  rw [List.filter_map]
  congr 1
  apply List.filter_congr
  intro g _
  simp only [Function.comp_apply]
  rw [decide_eq_decide]
  rw [hφ g.1 g.2]

/-- Sentinel characterisation of the detector: with at least one run, runs
inside `[0, dur]`, and a positive minimum length, the detected silences
are exactly the filtered consecutive gaps of the run list between sentinel
intervals at 0 and at `dur`. -/
theorem get_silent_segments_sentinel (runs : List Seg) (dur minLen : ℚ)
    (hminpos : 0 < minLen) (hne : runs ≠ [])
    (h0 : ∀ r ∈ runs, 0 ≤ r.1 ∧ r.2 ≤ dur) :
    get_silent_segments runs dur minLen =
      (gapsBetween ((0,0) :: runs ++ [(dur,dur)])).filter
        (fun g => minLen ≤ g.2 - g.1) := by
  obtain ⟨r0, rest, rfl⟩ := List.exists_cons_of_ne_nil hne
  obtain ⟨L, hL⟩ : ∃ L, (r0 :: rest).getLast? = some L :=
    ⟨_, List.getLast?_eq_getLast _ (List.cons_ne_nil _ _)⟩
  have hL' : (r0 :: rest).getLast (List.cons_ne_nil r0 rest) = L := by
    have h2 := List.getLast?_eq_getLast (r0 :: rest) (List.cons_ne_nil r0 rest)
    rw [h2] at hL
    injection hL
  have hgap2 : gapsBetween ((r0 :: rest) ++ [((dur:ℚ),(dur:ℚ))]) =
      gapsBetween (r0 :: rest) ++ [(L.2, dur)] := by
    have h := gapsBetween_concat r0 rest ((dur:ℚ),(dur:ℚ))
    rw [hL'] at h
    exact h
  have hKS : gapsBetween ((0,0) :: (r0 :: rest) ++ [(dur,dur)]) =
      ([((0:ℚ), r0.1)] ++ gapsBetween (r0 :: rest)) ++ [(L.2, dur)] :=
    calc gapsBetween ((0,0) :: (r0 :: rest) ++ [(dur,dur)])
        = ((0:ℚ), r0.1) :: gapsBetween ((r0 :: rest) ++ [((dur:ℚ),(dur:ℚ))]) :=
          rfl
      _ = ((0:ℚ), r0.1) :: (gapsBetween (r0 :: rest) ++ [(L.2, dur)]) := by
          rw [hgap2]
      _ = ([((0:ℚ), r0.1)] ++ gapsBetween (r0 :: rest)) ++ [(L.2, dur)] := by
          simp
  have hunf : get_silent_segments (r0 :: rest) dur minLen =
      (((if r0.1 > 0 then [((0:ℚ), r0.1)] else []) ++ gapsBetween (r0 :: rest)) ++
        (if L.2 < dur then [(L.2, dur)] else [])).filter
        (fun g => minLen ≤ g.2 - g.1) := by
    unfold get_silent_segments
    dsimp only
    rw [hL]
  rw [hunf, hKS]
  rw [List.filter_append, List.filter_append, List.filter_append,
    List.filter_append]
  congr 1
  · congr 1
    by_cases h : r0.1 > 0
    · rw [if_pos h]
    · rw [if_neg h]
      have hz : r0.1 = 0 := le_antisymm (not_lt.mp h) (h0 r0 (by simp)).1
      have hfalse : ¬ (minLen ≤ (((0:ℚ), r0.1) : Seg).2 - (((0:ℚ), r0.1) : Seg).1) := by
        show ¬ (minLen ≤ r0.1 - 0)
        rw [hz]
        norm_num
        linarith
      simp [List.filter_cons, hfalse]
      linarith
  · by_cases h : L.2 < dur
    · rw [if_pos h]
    · rw [if_neg h]
      have hLmem : L ∈ r0 :: rest := hL' ▸ List.getLast_mem _
      have hz : L.2 = dur := le_antisymm (h0 L hLmem).2 (not_lt.mp h)
      have hfalse : ¬ (minLen ≤ ((L.2, dur) : Seg).2 - ((L.2, dur) : Seg).1) := by
        show ¬ (minLen ≤ dur - L.2)
        rw [hz]
        norm_num
        linarith
      simp [List.filter_cons, hfalse]

/-- Clipped runs stay within the chunk. -/
theorem clipRunsAbs_bounds (runs : List Seg) (a b : ℚ) :
    ∀ r ∈ clipRunsAbs runs a b, a ≤ r.1 ∧ r.2 ≤ b := by
  intro r hr
  obtain ⟨r0, _, hro⟩ := List.mem_filterMap.mp hr
  by_cases h : max r0.1 a < min r0.2 b
  · rw [if_pos h] at hro
    injection hro with h'
    subst h'
    exact ⟨le_max_right _ _, min_le_right _ _⟩
  · rw [if_neg h] at hro
    exact absurd hro (by simp)

/-- Sentinel form of a chunk's contribution: for a chunk with at least one
clipped run, the contribution equals the filtered gaps of the absolute
clipped runs between sentinels at the chunk's endpoints. -/
theorem absSilent_eq_sentinel (runs : List Seg) (a b minLen : ℚ)
    (hminpos : 0 < minLen)
    (hne : clipRunsAbs runs a b ≠ []) :
    absSilent runs a b minLen =
      (gapsBetween ((a,a) :: clipRunsAbs runs a b ++ [(b,b)])).filter
        (fun g => minLen ≤ g.2 - g.1) := by
  have hmapid : ∀ (l : List Seg),
      (l.map (fun g : Seg => (g.1 - a, g.2 - a))).map
        (fun g : Seg => (g.1 + a, g.2 + a)) = l := by
    intro l
    rw [List.map_map]
    have hcomp : ((fun g : Seg => (g.1 + a, g.2 + a)) ∘
        fun g : Seg => (g.1 - a, g.2 - a)) = id := by
      funext g
      show (g.1 - a + a, g.2 - a + a) = g
      rw [Prod.ext_iff]
      constructor
      · show g.1 - a + a = g.1; ring
      · show g.2 - a + a = g.2; ring
    rw [hcomp, List.map_id]
  have hb3 : ∀ r' ∈ (clipRunsAbs runs a b).map
      (fun r : Seg => (r.1 - a, r.2 - a)), 0 ≤ r'.1 ∧ r'.2 ≤ b - a := by
    intro r' hr'
    obtain ⟨r, hr, rfl⟩ := List.mem_map.mp hr'
    obtain ⟨h1, h2⟩ := clipRunsAbs_bounds runs a b r hr
    constructor
    · show (0:ℚ) ≤ r.1 - a; linarith
    · show r.2 - a ≤ b - a; linarith
  have hmapne : (clipRunsAbs runs a b).map
      (fun r : Seg => (r.1 - a, r.2 - a)) ≠ [] := by
    simpa using hne
  show (get_silent_segments ((clipRunsAbs runs a b).map
      (fun r : Seg => (r.1 - a, r.2 - a))) (b - a) minLen).map
      (fun g : Seg => (g.1 + a, g.2 + a)) = _
  rw [get_silent_segments_sentinel _ _ _ hminpos hmapne hb3]
  rw [← filter_len_map_comp (fun x => x + a) (fun x y => by ring) minLen]
  congr 1
  have hlist : ((0:ℚ),(0:ℚ)) :: (clipRunsAbs runs a b).map
      (fun r : Seg => (r.1 - a, r.2 - a)) ++ [(b - a, b - a)] =
      (((a,a) : Seg) :: clipRunsAbs runs a b ++ [((b:ℚ),(b:ℚ))]).map
        (fun r : Seg => (r.1 - a, r.2 - a)) := by
    simp [sub_self]
  rw [hlist]
  rw [gapsBetween_map_comp (fun x => x - a)]
  rw [hmapid]

theorem clipRunsAbs_append (l₁ l₂ : List Seg) (a b : ℚ) :
    clipRunsAbs (l₁ ++ l₂) a b = clipRunsAbs l₁ a b ++ clipRunsAbs l₂ a b :=
  List.filterMap_append _ _ _

/-- Runs entirely at or after the window's end clip to nothing. -/
theorem clipRunsAbs_nil_of_ge (post : List Seg) (a b : ℚ)
    (h : ∀ q ∈ post, b ≤ q.1) : clipRunsAbs post a b = [] := by
  apply List.filterMap_eq_nil_iff.mpr
  intro q hq
  rw [if_neg]
  intro hcon
  have h1 : b ≤ q.1 := h q hq
  have h2 : q.1 ≤ max q.1 a := le_max_left _ _
  have h3 : min q.2 b ≤ b := min_le_right _ _
  linarith

/-- Runs entirely at or before the window's start clip to nothing. -/
theorem clipRunsAbs_nil_of_le (pre : List Seg) (a b : ℚ)
    (h : ∀ p ∈ pre, p.2 ≤ a) : clipRunsAbs pre a b = [] := by
  apply List.filterMap_eq_nil_iff.mpr
  intro p hp
  rw [if_neg]
  intro hcon
  have h1 : p.2 ≤ a := h p hp
  have h2 : a ≤ max p.1 a := le_max_right _ _
  have h3 : min p.2 b ≤ p.2 := min_le_left _ _
  linarith

/-- For runs ending by `b`, extending the window beyond `b` changes
nothing. -/
theorem clipRunsAbs_shrink_right (pre : List Seg) (a b c : ℚ) (hbc : b ≤ c)
    (h : ∀ p ∈ pre, p.2 ≤ b) : clipRunsAbs pre a b = clipRunsAbs pre a c := by
  apply List.filterMap_congr
  intro p hp
  have h1 : min p.2 b = p.2 := min_eq_left (h p hp)
  have h2 : min p.2 c = p.2 := min_eq_left (le_trans (h p hp) hbc)
  rw [h1, h2]

/-- For runs starting at or after `b`, moving the window start below `b`
changes nothing. -/
theorem clipRunsAbs_grow_left (post : List Seg) (a b c : ℚ) (hab : a ≤ b)
    (h : ∀ q ∈ post, b ≤ q.1) : clipRunsAbs post b c = clipRunsAbs post a c := by
  apply List.filterMap_congr
  intro q hq
  have h1 : max q.1 b = q.1 := max_eq_left (h q hq)
  have h2 : max q.1 a = q.1 := max_eq_left (le_trans hab (h q hq))
  rw [h1, h2]

theorem clipRunsAbs_single (r : Seg) (a b : ℚ) :
    clipRunsAbs [r] a b =
      if max r.1 a < min r.2 b then [(max r.1 a, min r.2 b)] else [] := by
  unfold clipRunsAbs
  rw [List.filterMap_cons]
  by_cases h : max r.1 a < min r.2 b
  · rw [if_pos h, if_pos h]
    rfl
  · rw [if_neg h, if_neg h]
    rfl

/-- A non-empty clip stays non-empty in a wider window. -/
theorem clipRunsAbs_ne_nil_mono (runs : List Seg) (a b a' b' : ℚ)
    (ha : a ≤ a') (hb : b' ≤ b) (h : clipRunsAbs runs a' b' ≠ []) :
    clipRunsAbs runs a b ≠ [] := by
  obtain ⟨x, hx⟩ := List.exists_mem_of_ne_nil _ h
  obtain ⟨r, hrmem, hro⟩ := List.mem_filterMap.mp hx
  by_cases hc : max r.1 a' < min r.2 b'
  · have hcnew : max r.1 a < min r.2 b := by
      have h1 : max r.1 a ≤ max r.1 a' := max_le_max (le_refl _) ha
      have h2 : min r.2 b' ≤ min r.2 b := min_le_min (le_refl _) hb
      linarith
    intro hnil
    have hmem2 : (max r.1 a, min r.2 b) ∈ clipRunsAbs runs a b :=
      List.mem_filterMap.mpr ⟨r, hrmem, by rw [if_pos hcnew]⟩
    rw [hnil] at hmem2
    simp at hmem2
  · rw [if_neg hc] at hro
    exact absurd hro (by simp)

/-- Splitting a gap computation at a shared element. -/
theorem gapsBetween_split : ∀ (xs : List Seg) (y : Seg) (ys : List Seg),
    gapsBetween (xs ++ y :: ys) =
      gapsBetween (xs ++ [y]) ++ gapsBetween (y :: ys)
  | [], y, ys => by simp [gapsBetween]
  | [x], y, ys => by
      rw [show ([x] ++ y :: ys) = x :: y :: ys from rfl,
        show gapsBetween (x :: y :: ys) =
          (x.2, y.1) :: gapsBetween (y :: ys) from rfl]
      rfl
  | x :: x' :: xs, y, ys => by
      have ih := gapsBetween_split (x' :: xs) y ys
      simp only [List.cons_append, gapsBetween] at ih ⊢
      exact congrArg (List.cons _) ih

/-- The gaps are unchanged when the final interval's end is replaced. -/
theorem gapsBetween_concat_eq : ∀ (xs : List Seg) (y y' : Seg), y.1 = y'.1 →
    gapsBetween (xs ++ [y]) = gapsBetween (xs ++ [y'])
  | [], _, _, _ => rfl
  | [x], y, y', h => by simp [gapsBetween, h]
  | x :: x' :: t, y, y', h => by
      have ih := gapsBetween_concat_eq (x' :: t) y y' h
      simp only [List.cons_append, gapsBetween] at ih ⊢
      exact congrArg (List.cons _) ih

/-- A degenerate interval never passes the length filter. -/
theorem filter_degenerate (x minLen : ℚ) (hminpos : 0 < minLen) :
    ([((x:ℚ), x)] : List Seg).filter (fun g => minLen ≤ g.2 - g.1) = [] := by
  have hfalse : ¬ (minLen ≤ (((x:ℚ), x) : Seg).2 - (((x:ℚ), x) : Seg).1) := by
    show ¬ (minLen ≤ x - x)
    rw [sub_self]
    linarith
  simp [List.filter_cons, hfalse]
  linarith

/-- Core splitting identity for filtered gap lists. -/
theorem filter_gaps_core (X : List Seg) (u v b : ℚ) (Y : List Seg)
    (minLen : ℚ) :
    (gapsBetween (X ++ (u, v) :: Y)).filter (fun g => minLen ≤ g.2 - g.1) =
      (gapsBetween (X ++ [(u, b)])).filter (fun g => minLen ≤ g.2 - g.1) ++
      (gapsBetween ((b, v) :: Y)).filter (fun g => minLen ≤ g.2 - g.1) := by
  rw [gapsBetween_split, List.filter_append,
    gapsBetween_concat_eq X (u,v) (u,b) rfl,
    gapsBetween_cons_eq (u,v) (b,v) rfl]

/-- Dropping a leading sentinel gap: when the list starts with the sentinel
`(b,b)` followed by an interval starting at `b`, the first gap is
degenerate and filtered away. -/
theorem filter_gaps_sentinel_head (b minLen : ℚ) (hminpos : 0 < minLen)
    (w : Seg) (Y : List Seg) (hw : w.1 = b) :
    (gapsBetween ((b,b) :: w :: Y)).filter (fun g => minLen ≤ g.2 - g.1) =
      (gapsBetween (w :: Y)).filter (fun g => minLen ≤ g.2 - g.1) := by
  rw [show gapsBetween ((b,b) :: w :: Y) =
    ((b:ℚ), w.1) :: gapsBetween (w :: Y) from rfl, hw]
  have hfalse : ¬ (minLen ≤ (((b:ℚ), b) : Seg).2 - (((b:ℚ), b) : Seg).1) := by
    show ¬ (minLen ≤ b - b)
    rw [sub_self]
    linarith
  simp [List.filter_cons, hfalse]
  linarith

/-- Splitting a detection window at an interior point `b` covered by a run:
the absolute contribution over `[a, c]` equals the concatenation of the
contributions over `[a, b]` and `[b, c]`, provided each side clips at
least one run. -/
theorem absSilent_split (runs : List Seg) (a b c minLen : ℚ)
    (hminpos : 0 < minLen)
    (hpw : List.Pairwise (fun x y : Seg => x.2 ≤ y.1) runs)
    (hwf : ∀ r ∈ runs, r.1 < r.2)
    (hab : a < b) (hbc : b < c)
    (hmid : ∃ r ∈ runs, r.1 ≤ b ∧ b ≤ r.2)
    (hneL : clipRunsAbs runs a b ≠ [])
    (hneR : clipRunsAbs runs b c ≠ []) :
    absSilent runs a c minLen =
      absSilent runs a b minLen ++ absSilent runs b c minLen := by
  obtain ⟨mid, hmidmem, hmid1, hmid2⟩ := hmid
  obtain ⟨pre, post, rfl⟩ := List.append_of_mem hmidmem
  have hmidwf : mid.1 < mid.2 := hwf mid (by simp)
  rw [List.pairwise_append] at hpw
  obtain ⟨hpwpre, hpwmid, hcross⟩ := hpw
  have hpre_b : ∀ p ∈ pre, p.2 ≤ b := fun p hp =>
    le_trans (hcross p hp mid (by simp)) hmid1
  have hpost_b : ∀ q ∈ post, b ≤ q.1 := fun q hq =>
    le_trans hmid2 ((List.pairwise_cons.mp hpwmid).1 q hq)
  have hP : clipRunsAbs pre a b = clipRunsAbs pre a c :=
    clipRunsAbs_shrink_right pre a b c (le_of_lt hbc) hpre_b
  have hQ : clipRunsAbs post b c = clipRunsAbs post a c :=
    clipRunsAbs_grow_left post a b c (le_of_lt hab) hpost_b
  have hCAB : clipRunsAbs (pre ++ mid :: post) a b =
      clipRunsAbs pre a c ++ clipRunsAbs [mid] a b := by
    rw [show (mid :: post) = [mid] ++ post from rfl, clipRunsAbs_append,
      clipRunsAbs_append, clipRunsAbs_nil_of_ge post a b hpost_b,
      List.append_nil, hP]
  have hCBC : clipRunsAbs (pre ++ mid :: post) b c =
      clipRunsAbs [mid] b c ++ clipRunsAbs post a c := by
    rw [show (mid :: post) = [mid] ++ post from rfl, clipRunsAbs_append,
      clipRunsAbs_append, clipRunsAbs_nil_of_le pre b c hpre_b,
      List.nil_append, hQ]
  have hmM : max mid.1 a < min mid.2 c := by
    rcases lt_or_eq_of_le hmid1 with h | h
    · have h1 : max mid.1 a < b := max_lt h hab
      have h2 : b ≤ min mid.2 c := le_min hmid2 (le_of_lt hbc)
      linarith
    · have h2 : b < mid.2 := h ▸ hmidwf
      have h3 : max mid.1 a ≤ b := max_le (le_of_eq h) (le_of_lt hab)
      have h4 : b < min mid.2 c := lt_min h2 hbc
      linarith
  have hCAC : clipRunsAbs (pre ++ mid :: post) a c =
      clipRunsAbs pre a c ++
        (max mid.1 a, min mid.2 c) :: clipRunsAbs post a c := by
    rw [show (mid :: post) = [mid] ++ post from rfl, clipRunsAbs_append,
      clipRunsAbs_append, clipRunsAbs_single, if_pos hmM,
      List.singleton_append]
  have hCACne : clipRunsAbs (pre ++ mid :: post) a c ≠ [] := by
    rw [hCAC]
    simp
  rw [absSilent_eq_sentinel _ a c minLen hminpos hCACne,
    absSilent_eq_sentinel _ a b minLen hminpos hneL,
    absSilent_eq_sentinel _ b c minLen hminpos hneR,
    hCAC, hCAB, hCBC]
  have hminb : min mid.2 b = b := min_eq_right hmid2
  have hmaxb : max mid.1 b = b := max_eq_right hmid1
  have hLmid : clipRunsAbs [mid] a b =
      if max mid.1 a < b then [(max mid.1 a, b)] else [] := by
    rw [clipRunsAbs_single, hminb]
  have hRmid : clipRunsAbs [mid] b c =
      if b < min mid.2 c then [(b, min mid.2 c)] else [] := by
    rw [clipRunsAbs_single, hmaxb]
  rcases lt_or_eq_of_le hmid1 with hm1 | hm1
  · have hcondL : max mid.1 a < b := max_lt hm1 hab
    rw [hLmid, if_pos hcondL]
    rcases lt_or_eq_of_le hmid2 with hm2 | hm2
    · -- interior case: mid.1 < b < mid.2
      have hcondR : b < min mid.2 c := lt_min hm2 hbc
      rw [hRmid, if_pos hcondR, List.singleton_append]
      rw [show ((a,a) : Seg) :: (clipRunsAbs pre a c ++
          (max mid.1 a, min mid.2 c) :: clipRunsAbs post a c) ++ [((c:ℚ),(c:ℚ))] =
          (((a,a) : Seg) :: clipRunsAbs pre a c) ++
          (max mid.1 a, min mid.2 c) ::
            (clipRunsAbs post a c ++ [((c:ℚ),(c:ℚ))]) from by simp]
      rw [filter_gaps_core (((a,a) : Seg) :: clipRunsAbs pre a c)
        (max mid.1 a) (min mid.2 c) b
        (clipRunsAbs post a c ++ [((c:ℚ),(c:ℚ))]) minLen]
      rw [show ((a,a) : Seg) :: (clipRunsAbs pre a c ++ [(max mid.1 a, b)]) ++
          [((b:ℚ),(b:ℚ))] =
          (((a,a) : Seg) :: clipRunsAbs pre a c) ++
          (max mid.1 a, b) :: [((b:ℚ),(b:ℚ))] from by simp]
      rw [filter_gaps_core (((a,a) : Seg) :: clipRunsAbs pre a c)
        (max mid.1 a) b b [((b:ℚ),(b:ℚ))] minLen]
      rw [show gapsBetween (((b,b) : Seg) :: [((b:ℚ),(b:ℚ))]) =
        [((b:ℚ), b)] from rfl]
      rw [filter_degenerate b minLen hminpos, List.append_nil]
      rw [show ((b,b) : Seg) :: ((b, min mid.2 c) :: clipRunsAbs post a c) ++
          [((c:ℚ),(c:ℚ))] =
          ((b,b) : Seg) :: ((b, min mid.2 c) : Seg) ::
            (clipRunsAbs post a c ++ [((c:ℚ),(c:ℚ))]) from by simp]
      rw [filter_gaps_sentinel_head b minLen hminpos
        ((b : ℚ), min mid.2 c) (clipRunsAbs post a c ++ [((c:ℚ),(c:ℚ))]) rfl]
    · -- boundary at the run's end: mid.2 = b
      have hMb : min mid.2 c = b := by rw [← hm2]; exact min_eq_left (le_of_lt hbc)
      have hcondR : ¬ (b < min mid.2 c) := by rw [hMb]; exact lt_irrefl b
      rw [hRmid, if_neg hcondR, List.nil_append, hMb]
      rw [show ((a,a) : Seg) :: (clipRunsAbs pre a c ++
          (max mid.1 a, b) :: clipRunsAbs post a c) ++ [((c:ℚ),(c:ℚ))] =
          (((a,a) : Seg) :: clipRunsAbs pre a c) ++
          (max mid.1 a, b) ::
            (clipRunsAbs post a c ++ [((c:ℚ),(c:ℚ))]) from by simp]
      rw [filter_gaps_core (((a,a) : Seg) :: clipRunsAbs pre a c)
        (max mid.1 a) b b
        (clipRunsAbs post a c ++ [((c:ℚ),(c:ℚ))]) minLen]
      rw [show ((a,a) : Seg) :: (clipRunsAbs pre a c ++ [(max mid.1 a, b)]) ++
          [((b:ℚ),(b:ℚ))] =
          (((a,a) : Seg) :: clipRunsAbs pre a c) ++
          (max mid.1 a, b) :: [((b:ℚ),(b:ℚ))] from by simp]
      rw [filter_gaps_core (((a,a) : Seg) :: clipRunsAbs pre a c)
        (max mid.1 a) b b [((b:ℚ),(b:ℚ))] minLen]
      rw [show gapsBetween (((b,b) : Seg) :: [((b:ℚ),(b:ℚ))]) =
        [((b:ℚ), b)] from rfl]
      rw [filter_degenerate b minLen hminpos, List.append_nil]
      rw [show ((b,b) : Seg) :: clipRunsAbs post a c ++ [((c:ℚ),(c:ℚ))] =
        ((b,b) : Seg) :: (clipRunsAbs post a c ++ [((c:ℚ),(c:ℚ))]) from rfl]
  · -- boundary at the run's start: mid.1 = b
    have hmb : max mid.1 a = b := by rw [hm1]; exact max_eq_left (le_of_lt hab)
    have hcondL : ¬ (max mid.1 a < b) := by rw [hmb]; exact lt_irrefl b
    rw [hLmid, if_neg hcondL, List.append_nil]
    have hm2' : b < mid.2 := hm1 ▸ hmidwf
    have hcondR : b < min mid.2 c := lt_min hm2' hbc
    rw [hRmid, if_pos hcondR, List.singleton_append, hmb]
    rw [show ((a,a) : Seg) :: (clipRunsAbs pre a c ++
        (b, min mid.2 c) :: clipRunsAbs post a c) ++ [((c:ℚ),(c:ℚ))] =
        (((a,a) : Seg) :: clipRunsAbs pre a c) ++
        ((b:ℚ), min mid.2 c) ::
          (clipRunsAbs post a c ++ [((c:ℚ),(c:ℚ))]) from by simp]
    rw [filter_gaps_core (((a,a) : Seg) :: clipRunsAbs pre a c)
      b (min mid.2 c) b
      (clipRunsAbs post a c ++ [((c:ℚ),(c:ℚ))]) minLen]
    rw [show ((a,a) : Seg) :: clipRunsAbs pre a c ++ [((b:ℚ),(b:ℚ))] =
      (((a,a) : Seg) :: clipRunsAbs pre a c) ++ [((b:ℚ),(b:ℚ))] from rfl]
    rw [show ([((b:ℚ),(b:ℚ))] : List Seg) = [((b:ℚ), b)] from rfl]
    rw [gapsBetween_concat_eq (((a,a) : Seg) :: clipRunsAbs pre a c)
      ((b:ℚ), b) ((b:ℚ), (b:ℚ)) rfl]
    rw [show ((b,b) : Seg) :: ((b, min mid.2 c) :: clipRunsAbs post a c) ++
        [((c:ℚ),(c:ℚ))] =
        ((b,b) : Seg) :: ((b : ℚ), min mid.2 c) ::
          (clipRunsAbs post a c ++ [((c:ℚ),(c:ℚ))]) from by simp]
    rw [filter_gaps_sentinel_head b minLen hminpos
      ((b : ℚ), min mid.2 c) (clipRunsAbs post a c ++ [((c:ℚ),(c:ℚ))]) rfl]

/-- In a contiguous chunk list every chunk ends by the final end. -/
theorem contig_ends_le : ∀ (cs : List Seg) (d : ℚ),
    List.Chain' (fun c c' : Seg => c.2 = c'.1) cs →
    (∀ c ∈ cs, c.1 < c.2) →
    cs.getLast?.map Prod.snd = some d →
    ∀ c ∈ cs, c.2 ≤ d
  | [], _, _, _, hlast, _, hc => by simp at hc
  | [c], d, _, _, hlast, x, hx => by
      have h1 : c.2 = d := by simpa using hlast
      have h2 : x = c := by simpa using hx
      rw [h2, h1]
  | c :: c' :: t, d, hch, hwfc, hlast, x, hx => by
      have hch' := (List.chain'_cons.mp hch).2
      have hlast' : (c' :: t).getLast?.map Prod.snd = some d := by
        rw [← hlast, List.getLast?_cons_cons]
      rcases List.mem_cons.mp hx with rfl | hx'
      · have h1 : x.2 = c'.1 := (List.chain'_cons.mp hch).1
        have h2 : c'.2 ≤ d := contig_ends_le (c' :: t) d hch'
          (fun y hy => hwfc y (List.mem_cons_of_mem _ hy)) hlast' c' (by simp)
        have h3 : c'.1 < c'.2 := hwfc c' (by simp)
        rw [h1]
        linarith
      · exact contig_ends_le (c' :: t) d hch'
          (fun y hy => hwfc y (List.mem_cons_of_mem _ hy)) hlast' x hx'

/-- Concatenating the per-chunk contributions over a contiguous chunk list
gives the single contribution over the whole window, provided every
interior chunk boundary is covered by a run and every chunk clips at least
one run. -/
theorem absSilent_chunks : ∀ (cs : List Seg) (runs : List Seg) (minLen d : ℚ),
    0 < minLen →
    List.Pairwise (fun x y : Seg => x.2 ≤ y.1) runs →
    (∀ r ∈ runs, r.1 < r.2) →
    List.Chain' (fun c c' : Seg => c.2 = c'.1) cs →
    (∀ c ∈ cs, c.1 < c.2) →
    cs.getLast?.map Prod.snd = some d →
    (∀ c ∈ cs, c.2 = d ∨ ∃ r ∈ runs, r.1 ≤ c.2 ∧ c.2 ≤ r.2) →
    (∀ c ∈ cs, clipRunsAbs runs c.1 c.2 ≠ []) →
    ∀ a, cs.head?.map Prod.fst = some a →
    cs.flatMap (fun c => absSilent runs c.1 c.2 minLen) =
      absSilent runs a d minLen
  | [], _, _, _, _, _, _, _, _, hlast, _, _, _, _ => by simp at hlast
  | [c], runs, minLen, d, _, _, _, _, _, hlast, _, _, a, hhead => by
      have h1 : c.2 = d := by simpa using hlast
      have h2 : c.1 = a := by simpa using hhead
      rw [List.flatMap_cons, List.flatMap_nil, List.append_nil, h1, h2]
  | c :: c' :: t, runs, minLen, d, hminpos, hpw, hwf, hch, hcwf, hlast,
      hbound, hclip, a, hhead => by
      have hc1a : c.1 = a := by simpa using hhead
      have hb : c.2 = c'.1 := (List.chain'_cons.mp hch).1
      have hch' := (List.chain'_cons.mp hch).2
      have hlast' : (c' :: t).getLast?.map Prod.snd = some d := by
        rw [← hlast, List.getLast?_cons_cons]
      have hendsle := contig_ends_le (c' :: t) d hch'
        (fun x hx => hcwf x (List.mem_cons_of_mem _ hx)) hlast'
      have hbd : c.2 < d := by
        have h1 : c'.1 < c'.2 := hcwf c' (by simp)
        have h2 : c'.2 ≤ d := hendsle c' (by simp)
        rw [hb]
        linarith
      have hmid : ∃ r ∈ runs, r.1 ≤ c.2 ∧ c.2 ≤ r.2 := by
        rcases hbound c (by simp) with h | h
        · exact absurd h (ne_of_lt hbd)
        · exact h
      have hIH := absSilent_chunks (c' :: t) runs minLen d hminpos hpw hwf hch'
        (fun x hx => hcwf x (List.mem_cons_of_mem _ hx)) hlast'
        (fun x hx => hbound x (List.mem_cons_of_mem _ hx))
        (fun x hx => hclip x (List.mem_cons_of_mem _ hx))
        c'.1 (by simp)
      rw [List.flatMap_cons, hIH]
      have hneR : clipRunsAbs runs c.2 d ≠ [] := by
        refine clipRunsAbs_ne_nil_mono runs c.2 d c'.1 c'.2
          (le_of_eq hb) (hendsle c' (by simp)) (hclip c' (by simp))
      rw [← hb, ← hc1a]
      exact (absSilent_split runs c.1 c.2 d minLen hminpos hpw hwf
        (hcwf c (by simp)) hbd hmid (hclip c (by simp)) hneR).symm

theorem clipRunsAbs_full (runs : List Seg) (D : ℚ)
    (hwf : ∀ r ∈ runs, r.1 < r.2)
    (hb : ∀ r ∈ runs, 0 ≤ r.1 ∧ r.2 ≤ D) :
    clipRunsAbs runs 0 D = runs := by
  have h : clipRunsAbs runs 0 D = List.filterMap some runs := by
    apply List.filterMap_congr
    intro r hr
    have h1 : max r.1 (0:ℚ) = r.1 := max_eq_left (hb r hr).1
    have h2 : min r.2 D = r.2 := min_eq_left (hb r hr).2
    have hcond : max r.1 (0:ℚ) < min r.2 D := by
      rw [h1, h2]
      exact hwf r hr
    rw [if_pos hcond, h1, h2]
  rw [h, List.filterMap_some]

/-- Over the whole window `[0, D]` the chunk contribution is plain
whole-track detection. -/
theorem absSilent_zero (runs : List Seg) (D minLen : ℚ)
    (hwf : ∀ r ∈ runs, r.1 < r.2)
    (hb : ∀ r ∈ runs, 0 ≤ r.1 ∧ r.2 ≤ D) :
    absSilent runs 0 D minLen = get_silent_segments runs D minLen := by
  have hsub : (fun r : Seg => (r.1 - 0, r.2 - 0)) = (id : Seg → Seg) := by
    funext r
    show (r.1 - 0, r.2 - 0) = r
    rw [Prod.ext_iff]
    constructor
    · show r.1 - 0 = r.1; ring
    · show r.2 - 0 = r.2; ring
  have hadd : (fun g : Seg => (g.1 + 0, g.2 + 0)) = (id : Seg → Seg) := by
    funext g
    show (g.1 + 0, g.2 + 0) = g
    rw [Prod.ext_iff]
    constructor
    · show g.1 + 0 = g.1; ring
    · show g.2 + 0 = g.2; ring
  unfold absSilent
  rw [show clipRuns runs 0 D = (clipRunsAbs runs 0 D).map
      (fun r : Seg => (r.1 - 0, r.2 - 0)) from rfl]
  rw [clipRunsAbs_full runs D hwf hb, hsub, List.map_id, hadd, List.map_id]
  rw [show D - 0 = D from by ring]

/-- Gaps of a weakly separated list are well-formed. -/
theorem gapsBetween_wf : ∀ (l : List Seg),
    List.Chain' (fun x y : Seg => x.2 ≤ y.1) l →
    ∀ g ∈ gapsBetween l, g.1 ≤ g.2
  | [], _, g, hg => by simp [gapsBetween] at hg
  | [_], _, g, hg => by simp [gapsBetween] at hg
  | x :: y :: t, hch, g, hg => by
      rw [show gapsBetween (x :: y :: t) =
        (x.2, y.1) :: gapsBetween (y :: t) from rfl] at hg
      rcases List.mem_cons.mp hg with rfl | hg'
      · exact (List.chain'_cons.mp hch).1
      · exact gapsBetween_wf (y :: t) (List.chain'_cons.mp hch).2 g hg'

/-- With strictly well-formed middles, consecutive gaps are strictly
separated. -/
theorem gapsBetween_chain_strict : ∀ (x : Seg) (Mi : List Seg) (t : Seg),
    (∀ m ∈ Mi, m.1 < m.2) →
    List.Chain' (fun g g' : Seg => g.2 < g'.1) (gapsBetween (x :: Mi ++ [t]))
  | x, [], t, _ => by
      rw [show (x :: ([] : List Seg) ++ [t]) = [x, t] from rfl]
      rw [show gapsBetween [x, t] = [(x.2, t.1)] from rfl]
      exact List.chain'_singleton _
  | x, m :: Mi, t, hm => by
      have ih := gapsBetween_chain_strict m Mi t
        (fun w hw => hm w (List.mem_cons_of_mem _ hw))
      cases Mi with
      | nil =>
          show List.Chain' _ ((x.2, m.1) :: gapsBetween (m :: [] ++ [t]))
          rw [show gapsBetween (m :: ([] : List Seg) ++ [t]) =
            [(m.2, t.1)] from rfl]
          exact List.chain'_cons.mpr ⟨hm m (by simp), List.chain'_singleton _⟩
      | cons m' Mi' =>
          show List.Chain' _
            ((x.2, m.1) :: (m.2, m'.1) :: gapsBetween (m' :: Mi' ++ [t]))
          refine List.chain'_cons.mpr ⟨hm m (by simp), ?_⟩
          exact ih

/-- Strict separation plus well-formedness gives strict pairwise
separation. -/
theorem chainSepStrict_pairwise : ∀ (l : List Seg),
    (∀ x ∈ l, x.1 ≤ x.2) →
    List.Chain' (fun a b : Seg => a.2 < b.1) l →
    List.Pairwise (fun a b : Seg => a.2 < b.1) l
  | [], _, _ => List.Pairwise.nil
  | [x], _, _ => by simp
  | x :: y :: t, hwf, hch => by
      have hxy : x.2 < y.1 := (List.chain'_cons.mp hch).1
      have ih := chainSepStrict_pairwise (y :: t)
        (fun z hz => hwf z (List.mem_cons_of_mem _ hz))
        (List.chain'_cons.mp hch).2
      refine List.Pairwise.cons ?_ ih
      intro z hz
      rcases List.mem_cons.mp hz with rfl | hz'
      · exact hxy
      · have h1 : y.2 < z.1 := (List.pairwise_cons.mp ih).1 z hz'
        have h2 : y.1 ≤ y.2 := hwf y (by simp)
        linarith

/-- The sentinel list around a sorted bounded run list is weakly
separated. -/
theorem sentinel_chain_le (runs : List Seg) (dur : ℚ)
    (hpw : List.Pairwise (fun x y : Seg => x.2 ≤ y.1) runs)
    (hb : ∀ r ∈ runs, 0 ≤ r.1 ∧ r.2 ≤ dur)
    (h0dur : 0 ≤ dur) :
    List.Chain' (fun x y : Seg => x.2 ≤ y.1)
      ((0,0) :: runs ++ [(dur,dur)]) := by
  apply List.chain'_cons'.mpr
  constructor
  · intro y hy
    cases runs with
    | nil =>
        have h : ((dur:ℚ),(dur:ℚ)) = y := by simpa using hy
        subst h
        exact h0dur
    | cons r t =>
        have h : r = y := by simpa using hy
        subst h
        exact (hb r (by simp)).1
  · apply List.chain'_append.mpr
    refine ⟨hpw.chain', List.chain'_singleton _, ?_⟩
    intro x hx y hy
    have hy' : ((dur:ℚ), (dur:ℚ)) = y := by simpa using hy
    subst hy'
    have hxmem : x ∈ runs := by
      cases runs with
      | nil => simp at hx
      | cons r t =>
          exact List.mem_of_mem_getLast? hx
    exact (hb x hxmem).2

/-- Every detected silent segment has length at least `minLen`. -/
theorem get_silent_segments_minlen (runs : List Seg) (dur minLen : ℚ) :
    ∀ g ∈ get_silent_segments runs dur minLen, minLen ≤ g.2 - g.1 := by
  intro g hg
  have h := (List.mem_filter.mp hg).2
  simpa using h

/-- The detected silent segments are strictly separated in timeline
order. -/
theorem get_silent_segments_sep (runs : List Seg) (dur minLen : ℚ)
    (hminpos : 0 < minLen)
    (hpw : List.Pairwise (fun x y : Seg => x.2 ≤ y.1) runs)
    (hwf : ∀ r ∈ runs, r.1 < r.2)
    (hb : ∀ r ∈ runs, 0 ≤ r.1 ∧ r.2 ≤ dur)
    (h0dur : 0 ≤ dur) :
    List.Pairwise (fun g g' : Seg => g.2 < g'.1)
      (get_silent_segments runs dur minLen) := by
  cases hruns : runs with
  | nil => simp [get_silent_segments, gapsBetween]
  | cons r t =>
      rw [← hruns]
      rw [get_silent_segments_sentinel runs dur minLen hminpos
        (by rw [hruns]; exact List.cons_ne_nil _ _) hb]
      refine List.Pairwise.sublist (List.filter_sublist _) ?_
      apply chainSepStrict_pairwise
      · exact gapsBetween_wf _ (sentinel_chain_le runs dur hpw hb h0dur)
      · exact gapsBetween_chain_strict (0,0) runs ((dur:ℚ),(dur:ℚ)) hwf

/-- The sweep leaves a strictly separated list unchanged. -/
theorem sweep_id : ∀ (t : List Seg) (x : Seg),
    List.Chain' (fun g g' : Seg => g.2 < g'.1) (x :: t) →
    sweep x t = x :: t
  | [], _, _ => rfl
  | s :: t, x, hch => by
      have h1 : x.2 < s.1 := (List.chain'_cons.mp hch).1
      rw [sweep_cons, if_neg (not_le.mpr h1)]
      exact congrArg (List.cons x) (sweep_id t s (List.chain'_cons.mp hch).2)

/-- The merge leaves a strictly separated list of well-formed intervals
unchanged. -/
theorem merge_segments_of_separated (l : List Seg)
    (hwf : ∀ g ∈ l, g.1 < g.2)
    (hsep : List.Pairwise (fun g g' : Seg => g.2 < g'.1) l) :
    merge_segments l = l := by
  have hsorted : List.Sorted leLex l := by
    apply List.Pairwise.imp_of_mem ?_ hsep
    intro g g' hg hg' h
    exact Or.inl (lt_trans (hwf g hg) h)
  have hs : sortLex l = l := List.Sorted.insertionSort_eq hsorted
  cases hl : l with
  | nil => rfl
  | cons x t =>
      have hs' : sortLex (x :: t) = x :: t := by rw [← hl, hs, hl]
      have hm : merge_segments (x :: t) = sweep x t := by
        unfold merge_segments
        rw [hs']
      rw [hm]
      exact sweep_id t x (by rw [← hl]; exact hsep.chain')

/-- Chunked detection equals whole-track detection whenever the chunks
cover the duration, every chunk boundary is covered by a non-silent run,
and every chunk clips at least one run. -/
theorem chunked_eq_whole (runs : List Seg) (D minLen : ℚ)
    (hminpos : 0 < minLen)
    (hpw : List.Pairwise (fun x y : Seg => x.2 ≤ y.1) runs)
    (hwf : ∀ r ∈ runs, r.1 < r.2)
    (hb : ∀ r ∈ runs, 0 ≤ r.1 ∧ r.2 ≤ D)
    (hD1 : 1 ≤ D)
    (hcover : D ≤ 600 * (numChunks D : ℚ))
    (hbound : ∀ c ∈ chunks_of D, c.2 = D ∨ ∃ r ∈ runs, r.1 ≤ c.2 ∧ c.2 ≤ r.2)
    (hclip : ∀ c ∈ chunks_of D, clipRunsAbs runs c.1 c.2 ≠ []) :
    chunked_silent_segments runs D minLen =
      get_silent_segments runs D minLen := by
  have hD0 : (0:ℚ) ≤ D := le_trans zero_le_one hD1
  have hnum := numChunks_pos D hD1
  have hlastD : (chunks_of D).getLast?.map Prod.snd = some D := by
    rw [chunks_getLast D hnum]
    have hcast : (600 * ((numChunks D - 1 : ℕ) : ℚ) + 600) =
        600 * (numChunks D : ℚ) := by
      have h2 : ((numChunks D - 1 : ℕ) : ℚ) = (numChunks D : ℚ) - 1 := by
        push_cast [Nat.cast_sub hnum]
        ring
      rw [h2]
      ring
    have hmin : min (600 * ((numChunks D - 1 : ℕ) : ℚ) + 600) D = D := by
      rw [hcast]
      exact min_eq_right hcover
    simp [hmin]
  have hhead0 : (chunks_of D).head?.map Prod.fst = some 0 := by
    rw [chunks_head D hnum]
    rfl
  have hflat : (chunks_of D).flatMap
      (fun c => absSilent runs c.1 c.2 minLen) =
      absSilent runs 0 D minLen :=
    absSilent_chunks (chunks_of D) runs minLen D hminpos hpw hwf
      (chunks_chain D hD0) (chunk_wf D hD0) hlastD hbound hclip 0 hhead0
  have hws : absSilent runs 0 D minLen = get_silent_segments runs D minLen :=
    absSilent_zero runs D minLen hwf hb
  show merge_segments ((chunks_of D).flatMap
    (fun c => absSilent runs c.1 c.2 minLen)) = _
  rw [hflat, hws]
  refine merge_segments_of_separated _ ?_ ?_
  · intro g hg
    have := get_silent_segments_minlen runs D minLen g hg
    linarith
  · exact get_silent_segments_sep runs D minLen hminpos hpw hwf hb hD0

theorem numChunks_2000 : numChunks (2000:ℚ) = 4 := by
  have h0 : ⌊(2000:ℚ)⌋ = 2000 := by norm_num
  rw [numChunks, h0]
  decide

theorem chunks_of_2000 :
    chunks_of 2000 = [(0,600),(600,1200),(1200,1800),(1800,2000)] := by
  rw [chunks_of, numChunks_2000]
  norm_num [List.range_succ, min_def]

theorem numChunks_1900 : numChunks (1900:ℚ) = 4 := by
  have h0 : ⌊(1900:ℚ)⌋ = 1900 := by norm_num
  rw [numChunks, h0]
  decide

theorem chunks_of_1900 :
    chunks_of 1900 = [(0,600),(600,1200),(1200,1800),(1800,1900)] := by
  rw [chunks_of, numChunks_1900]
  norm_num [List.range_succ, min_def]

/-- Evaluation of chunked detection on the boundary-straddling example:
silence over `[595, 615]` with chunk boundary at 600. -/
theorem straddle_chunked_eval :
    chunked_silent_segments [((0:ℚ),595),(615,2000)] 2000 (1/2) =
      [((595:ℚ),615)] := by
  have hflat : ([(0,600),(600,1200),(1200,1800),(1800,2000)] : List Seg).flatMap
      (fun c => (get_silent_segments
        (clipRuns [((0:ℚ),595),(615,2000)] c.1 c.2) (c.2 - c.1) (1/2)).map
        (fun g => (g.1 + c.1, g.2 + c.1))) =
      [((595:ℚ),600),(600,615)] := by
    norm_num [List.flatMap_cons, List.flatMap_nil, clipRuns, clipRunsAbs,
      List.filterMap_cons, List.filterMap_nil, get_silent_segments,
      gapsBetween, List.getLast?, List.filter_cons, List.filter_nil,
      min_def, max_def, decide_eq_true_eq]
  have hmerge : merge_segments [((595:ℚ),600),(600,615)] = [((595:ℚ),615)] := by
    norm_num [merge_segments, sortLex, List.insertionSort, List.orderedInsert,
      leLex, sweep, max_def, decide_eq_true_eq]
  rw [chunked_silent_segments, chunks_of_2000, hflat, hmerge]

/-- Whole-track detection on the straddling example. -/
theorem straddle_whole_eval :
    get_silent_segments [((0:ℚ),595),(615,2000)] 2000 (1/2) =
      [((595:ℚ),615)] := by
  norm_num [get_silent_segments, gapsBetween, List.getLast?,
    List.filter_cons, List.filter_nil, decide_eq_true_eq]

/-- Counterexample for C2: for a track of duration 1900 with non-silent
runs `[(0,600), (1200,1900)]` and minLen 0.5, the only silent span is
`(600, 1200)`, whose endpoints coincide with chunk boundaries: no silent
span crosses (straddles) a chunk boundary strictly.  Whole-track detection
reports `[(600, 1200)]`, while chunked detection reports nothing, because
the chunk `(600, 1200)` is entirely silent and per-chunk detection returns
no silences for a chunk with no non-silent runs. -/
theorem c2_counterexample :
    chunked_silent_segments [((0:ℚ),600),(1200,1900)] 1900 (1/2) = [] ∧
    get_silent_segments [((0:ℚ),600),(1200,1900)] 1900 (1/2) =
      [((600:ℚ),1200)] ∧
    (∀ c ∈ chunks_of (1900:ℚ),
      ¬ ((600:ℚ) < c.1 ∧ c.1 < 1200) ∧ ¬ ((600:ℚ) < c.2 ∧ c.2 < 1200)) := by
  refine ⟨?_, ?_, ?_⟩
  · have hflat : ([(0,600),(600,1200),(1200,1800),(1800,1900)] :
        List Seg).flatMap
        (fun c => (get_silent_segments
          (clipRuns [((0:ℚ),600),(1200,1900)] c.1 c.2) (c.2 - c.1) (1/2)).map
          (fun g => (g.1 + c.1, g.2 + c.1))) = [] := by
      norm_num [List.flatMap_cons, List.flatMap_nil, clipRuns, clipRunsAbs,
        List.filterMap_cons, List.filterMap_nil, get_silent_segments,
        gapsBetween, List.getLast?, List.filter_cons, List.filter_nil,
        min_def, max_def, decide_eq_true_eq]
    rw [chunked_silent_segments, chunks_of_1900, hflat]
    rfl
  · norm_num [get_silent_segments, gapsBetween, List.getLast?,
      List.filter_cons, List.filter_nil, decide_eq_true_eq]
  · rw [chunks_of_1900]
    intro c hc
    simp only [List.mem_cons, List.not_mem_nil, or_false] at hc
    rcases hc with rfl | rfl | rfl | rfl <;> norm_num

/-- C2 amended: chunked detection (per-600-second-chunk detection,
translation by the chunk start, and merging) equals whole-track detection
whenever (i) the chunk list covers the whole duration, (ii) no silent span
crosses a chunk boundary — each chunk boundary lies inside a (closed)
non-silent run — and (iii) every chunk contains part of a non-silent run;
and the silent span `[595, 615]` straddling the boundary 600 appears after
the merge as the single interval `(595, 615)`, not as two intervals. -/
theorem c2_chunked_detection :
    (∀ (runs : List Seg) (D minLen : ℚ),
      0 < minLen →
      List.Pairwise (fun x y : Seg => x.2 ≤ y.1) runs →
      (∀ r ∈ runs, r.1 < r.2) →
      (∀ r ∈ runs, 0 ≤ r.1 ∧ r.2 ≤ D) →
      1 ≤ D →
      D ≤ 600 * (numChunks D : ℚ) →
      (∀ c ∈ chunks_of D, c.2 = D ∨ ∃ r ∈ runs, r.1 ≤ c.2 ∧ c.2 ≤ r.2) →
      (∀ c ∈ chunks_of D, clipRunsAbs runs c.1 c.2 ≠ []) →
      chunked_silent_segments runs D minLen =
        get_silent_segments runs D minLen) ∧
    chunked_silent_segments [((0:ℚ),595),(615,2000)] 2000 (1/2) =
      [((595:ℚ),615)] ∧
    get_silent_segments [((0:ℚ),595),(615,2000)] 2000 (1/2) =
      [((595:ℚ),615)] :=
  ⟨chunked_eq_whole, straddle_chunked_eval, straddle_whole_eval⟩

/-- Witness for C2 amended: a fully non-silent track of duration 1900;
every chunk boundary lies inside the single run and every chunk clips part
of it, so the general part applies. -/
theorem c2_witness :
    chunked_silent_segments [((0:ℚ),1900)] 1900 (1/2) =
      get_silent_segments [((0:ℚ),1900)] 1900 (1/2) := by
  apply c2_chunked_detection.1 [((0:ℚ),1900)] 1900 (1/2)
  · norm_num
  · simp
  · intro r hr
    have h : r = ((0:ℚ), 1900) := by simpa using hr
    rw [h]
    norm_num
  · intro r hr
    have h : r = ((0:ℚ), 1900) := by simpa using hr
    rw [h]
    norm_num
  · norm_num
  · rw [numChunks_1900]
    norm_num
  · rw [chunks_of_1900]
    intro c hc
    simp only [List.mem_cons, List.not_mem_nil, or_false] at hc
    rcases hc with rfl | rfl | rfl | rfl
    · exact Or.inr ⟨((0:ℚ),1900), by simp, by norm_num⟩
    · exact Or.inr ⟨((0:ℚ),1900), by simp, by norm_num⟩
    · exact Or.inr ⟨((0:ℚ),1900), by simp, by norm_num⟩
    · exact Or.inl rfl
  · rw [chunks_of_1900]
    intro c hc
    simp only [List.mem_cons, List.not_mem_nil, or_false] at hc
    rcases hc with rfl | rfl | rfl | rfl <;>
      norm_num [clipRunsAbs, List.filterMap_cons, List.filterMap_nil,
        min_def, max_def]
